import Mathlib

/-!
# A verification development for `ws.go`, a Whitespace interpreter

The Go program consists of one function `whitespace(src []byte)` that

1. removes every byte that is not a space, a tab or a newline,
2. cuts the remaining stream into `opcode`s by looking codewords up in `optable`,
3. runs the resulting `opcodes` on a stack machine.

The three phases are embedded below as `strip`, `lex` and `step`/`run`.

Conventions of the embedding
* a byte is a `Nat` (space = 32, tab = 9, newline = 10);
* Go `int` is the 64-bit two's complement integer, embedded as an `Int` that every
  arithmetic operation brings back into range with `wrap64`;
* a Go `stack` (a slice whose last element is the top) is a `List Int` whose head is the top;
* the Go map `heap` is an association list read with default `0`;
* standard input is the list of the bytes not yet read, all of them available at once (a file
  or a filled pipe): a `Read` returns as many bytes as it is asked for, or all that is left;
  standard output is a list of characters.
-/

namespace Ws

/-! ## Opcodes -/

/-- The Go type `Op` with its `iota` constants, in declaration order. -/
inductive Op where
  | Push | Signed | Dup | Copy | Swap | Discard | Slide
  | Add | Sub | Mul | Div | Mod
  | Store | Retrieve
  | Mark | Unsigned | Call | Jump | Jz | Jn | Ret | Exit
  | OutC | OutN | InC | InN
  | Nop
  deriving DecidableEq, Repr

/-- The Go struct `opcode`. -/
structure opcode where
  code : Op
  arg : Int
  deriving DecidableEq, Repr

/-- The Go type `opcodes`. -/
abbrev opcodes := List opcode

/-! ## Machine integers -/

/-- Two's complement reduction of an integer to the range of a 64-bit Go `int`. -/
def wrap64 (x : Int) : Int := (x + 2 ^ 63) % 2 ^ 64 - 2 ^ 63

/-- Two's complement reduction to the range of a Go `rune` (`int32`). -/
def wrap32 (x : Int) : Int := (x + 2 ^ 31) % 2 ^ 32 - 2 ^ 31

/-! ## Bytes -/

/-- The byte `' '`. -/
abbrev SP : Nat := 32
/-- The byte `'\t'`. -/
abbrev TAB : Nat := 9
/-- The byte `'\n'`. -/
abbrev LF : Nat := 10

/-- The closure handed to `bytes.IndexFunc` at line 115:
`r != ' ' && r != '\t' && r != '\n'`. -/
def isComment (r : Nat) : Bool := r != SP && r != TAB && r != LF

/-! ## `bytes.IndexFunc`, with the UTF-8 decoding it performs -/

/-- The constant `utf8.RuneError`. -/
def RuneError : Nat := 0xFFFD

/-- The function `utf8.DecodeRune`: first rune of `p` and its width in bytes. An invalid or
truncated encoding gives `(RuneError, 1)`. The table `first` and the `acceptRanges` of the Go
library are written out as comparisons on the leading byte. -/
def DecodeRune (p : List Nat) : Nat × Nat :=
  match p with
  | [] => (RuneError, 0)
  | p0 :: t =>
    if p0 < 0x80 then (p0, 1)
    else if p0 < 0xC2 ∨ 0xF4 < p0 then (RuneError, 1)
    else
      let sz : Nat := if p0 < 0xE0 then 2 else if p0 < 0xF0 then 3 else 4
      let lo : Nat := if p0 = 0xE0 then 0xA0 else if p0 = 0xF0 then 0x90 else 0x80
      let hi : Nat := if p0 = 0xED then 0x9F else if p0 = 0xF4 then 0x8F else 0xBF
      if p.length < sz then (RuneError, 1)
      else
        match t with
        | [] => (RuneError, 1)
        | b1 :: t1 =>
          if b1 < lo ∨ hi < b1 then (RuneError, 1)
          else if sz ≤ 2 then (((p0 &&& 0x1F) <<< 6) ||| (b1 &&& 0x3F), 2)
          else
            match t1 with
            | [] => (RuneError, 1)
            | b2 :: t2 =>
              if b2 < 0x80 ∨ 0xBF < b2 then (RuneError, 1)
              else if sz ≤ 3 then
                (((p0 &&& 0x0F) <<< 12) ||| ((b1 &&& 0x3F) <<< 6) ||| (b2 &&& 0x3F), 3)
              else
                match t2 with
                | [] => (RuneError, 1)
                | b3 :: _ =>
                  if b3 < 0x80 ∨ 0xBF < b3 then (RuneError, 1)
                  else
                    (((p0 &&& 0x07) <<< 18) ||| ((b1 &&& 0x3F) <<< 12)
                      ||| ((b2 &&& 0x3F) <<< 6) ||| (b3 &&& 0x3F), 4)

/-- The loop of `bytes.IndexFunc(s, f)`: `s` is what is left of the slice from byte offset
`start` on. A byte below `utf8.RuneSelf` is its own rune, any other byte is decoded; the scan
stops at the first rune satisfying `f` and otherwise advances by the width of the rune.
`fuel` bounds the number of runes looked at. -/
def indexFuncFrom (f : Nat → Bool) : Nat → List Nat → Nat → Option Nat
  | 0, _, _ => none
  | fuel + 1, s, start =>
    match s with
    | [] => none
    | b :: _ =>
      let rw : Nat × Nat := if b ≥ 0x80 then DecodeRune s else (b, 1)
      if f rw.1 then some start
      else indexFuncFrom f fuel (s.drop rw.2) (start + rw.2)

/-- The function `bytes.IndexFunc`: byte offset of the first rune satisfying `f`, `none` for
Go's `-1`. Every rune is at least one byte wide, so `s.length` rounds are enough. -/
def IndexFunc (s : List Nat) (f : Nat → Bool) : Option Nat :=
  indexFuncFrom f s.length s 0

/-! ## Phase 1: removing comments (lines 113-126) -/

/-- The loop `for { pos := bytes.IndexFunc(...); ... }`: every round deletes the byte at the
offset found, the loop ends when no offset is found. `none` means the fuel ran out. -/
def stripLoop : Nat → List Nat → Option (List Nat)
  | 0, _ => none
  | fuel + 1, src =>
    match IndexFunc src isComment with
    | none => some src
    | some pos =>
      if pos = 0 then stripLoop fuel (src.drop 1)
      else stripLoop fuel (src.take pos ++ src.drop (pos + 1))

/-- Phase 1 of `whitespace`. Each round but the last deletes one byte, so `src.length + 1`
rounds always suffice (`strip_eq_filter`). -/
def strip (src : List Nat) : Option (List Nat) :=
  stripLoop (src.length + 1) src

/-! ## Phase 2: cutting the stream into opcodes (lines 128-181) -/

/-- The map literal `optable`, as the list of its entries in the order of the source text. The
two entries for `Copy` and `Slide` are commented out in the source and therefore absent. -/
def optable : List (List Nat × Op) :=
  [ ([SP, SP], .Push),
    ([SP, LF, SP], .Dup),
    ([SP, LF, TAB], .Swap),
    ([SP, LF, LF], .Discard),
    ([TAB, SP, SP, SP], .Add),
    ([TAB, SP, SP, TAB], .Sub),
    ([TAB, SP, SP, LF], .Mul),
    ([TAB, SP, TAB, SP], .Div),
    ([TAB, SP, TAB, TAB], .Mod),
    ([TAB, TAB, SP], .Store),
    ([TAB, TAB, TAB], .Retrieve),
    ([LF, SP, SP], .Mark),
    ([LF, SP, TAB], .Call),
    ([LF, SP, LF], .Jump),
    ([LF, TAB, SP], .Jz),
    ([LF, TAB, TAB], .Jn),
    ([LF, TAB, LF], .Ret),
    ([LF, LF, LF], .Exit),
    ([TAB, LF, SP, SP], .OutC),
    ([TAB, LF, SP, TAB], .OutN),
    ([TAB, LF, TAB, SP], .InC),
    ([TAB, LF, TAB, TAB], .InN) ]

/-- The loop `for k, v := range optable` of lines 131-139, run over the entries in the order
`tbl`: starting from `op = ""`, `code = Nop`, it stops at the first key that `src` begins
with. -/
def matchOp (tbl : List (List Nat × Op)) (src : List Nat) : List Nat × Op :=
  match tbl with
  | [] => ([], .Nop)
  | (k, v) :: rest => if k.isPrefixOf src then (k, v) else matchOp rest src

/-- The two argument loops (lines 150-164 and 168-178) from their current index on: `s` is
`src[i:]`. A space doubles `arg`, a tab doubles it and sets the low bit, any other byte but a
newline is passed over, a newline ends the loop. The result is the final `arg` and, when a
newline was met, `src[i+1:]`. `(arg << 1) | b` is `2 * arg + b` reduced to 64 bits. -/
def scanArg : List Nat → Int → Int × Option (List Nat)
  | [], arg => (arg, none)
  | c :: s, arg =>
    if c = SP then scanArg s (wrap64 (arg * 2))
    else if c = TAB then scanArg s (wrap64 (arg * 2 + 1))
    else if c = LF then (arg, some s)
    else scanArg s arg

/-- The case `Push` of the switch at line 146: the loop starts at index 1, and at the newline
`arg` is negated when `src[0]` is a tab. Without a newline `src` stays as it is. -/
def signedArg (src : List Nat) : Int × List Nat :=
  match scanArg (src.drop 1) 0 with
  | (arg, some rest) => (if src.head? = some TAB then wrap64 (-arg) else arg, rest)
  | (arg, none) => (arg, src)

/-- The case `Mark, Call, Jump, Jz, Jn` of the switch at line 146. -/
def unsignedArg (src : List Nat) : Int × List Nat :=
  match scanArg src 0 with
  | (arg, some rest) => (arg, rest)
  | (arg, none) => (arg, src)

/-- The switch at line 146: the argument of an opcode and the stream after it
(`var arg int` is `0` for the opcodes without a case). -/
def readArg (code : Op) (src : List Nat) : Int × List Nat :=
  match code with
  | .Push => signedArg src
  | .Mark | .Call | .Jump | .Jz | .Jn => unsignedArg src
  | _ => (0, src)

/-- The loop `for len(src) > 0` of lines 130-181. Go leaves the iteration order of a map
open, so round number `fuel` iterates `optable` in the order `order fuel`. `none` means
the fuel ran out before the stream was empty. -/
def lexLoop (order : Nat → List (List Nat × Op)) :
    Nat → List Nat → opcodes → Option opcodes
  | 0, src, tokens => if src.length > 0 then none else some tokens
  | fuel + 1, src, tokens =>
    if src.length > 0 then
      let m := matchOp (order fuel) src
      if m.1 = [] then lexLoop order fuel (src.drop 1) tokens
      else
        let a := readArg m.2 (src.drop m.1.length)
        lexLoop order fuel a.2 (tokens ++ [⟨m.2, a.1⟩])
    else some tokens

/-- Phase 2 of `whitespace` with the table iterated in source order. Every round consumes at
least one byte, so `src.length` rounds suffice (`lex_total`). -/
def lex (src : List Nat) : Option opcodes :=
  lexLoop (fun _ => optable) src.length src []

/-- Phases 1 and 2 of `whitespace`: the value of `tokens` at line 182. -/
def decode (src : List Nat) : Option opcodes :=
  (strip src).bind lex

/-! ## Phase 3: the stack machine (lines 183-263) -/

/-- The Go type `stack`, head first: the head of the list is the last element of the slice. -/
abbrev stack := List Int

/-- The method `stack.push`. -/
def stack.push (s : stack) (v : Int) : stack := v :: s

/-- The method `stack.pop`: the popped value and the stack left. On the empty stack the value
is `-1` and the stack stays empty (lines 95-97). -/
def stack.pop (s : stack) : Int × stack :=
  match s with
  | [] => (-1, [])
  | v :: rest => (v, rest)

/-- The method `stack.dup`: nothing happens on the empty stack (lines 105-107). -/
def stack.dup (s : stack) : stack :=
  match s with
  | [] => []
  | v :: rest => v :: v :: rest

/-- The method `opcodes.jmp`: the loop visits every instruction in order and overwrites `pc`
at each `Mark` whose argument is `arg`; without such a `Mark` the value of `pc` is kept. -/
def jmp (p : opcodes) (arg : Int) (pc : Int) : Int :=
  p.enum.foldl (fun pc it => if it.2.code = Op.Mark ∧ it.2.arg = arg then (it.1 : Int) else pc) pc

/-- Reading `heap[a]` on the Go map `heap`: a key that was never written reads as `0`. -/
def heapGet : List (Int × Int) → Int → Int
  | [], _ => 0
  | (k, v) :: h, a => if k = a then v else heapGet h a

/-- The assignment `heap[a] = v`: the new binding hides any older one for `a`. -/
def heapSet (h : List (Int × Int)) (a v : Int) : List (Int × Int) := (a, v) :: h

/-- The conversion `string(rune(v))` of line 202: `v` is cut to 32 bits, and a value that is
not a Unicode scalar value becomes U+FFFD. -/
def runeString (v : Int) : List Char :=
  let r := wrap32 v
  if 0 ≤ r ∧ (r < 0xD800 ∨ (0xDFFF < r ∧ r ≤ 0x10FFFF)) then [Char.ofNat r.toNat]
  else [Char.ofNat 0xFFFD]

/-- The text `fmt.Print` writes for an `int`: its decimal representation. -/
def printInt (v : Int) : List Char := (toString v).toList

/-- The loop of `strconv.ParseUint(s, 10, 64)`: `none` is a syntax error, and a value beyond
64 bits ends the loop at once with the largest `uint64`. -/
def parseUint : List Nat → Nat → Option Nat
  | [], n => some n
  | c :: s, n =>
    if c < 48 ∨ 57 < c then none
    else if n * 10 + (c - 48) > 2 ^ 64 - 1 then some (2 ^ 64 - 1)
    else parseUint s (n * 10 + (c - 48))

/-- The function `strconv.Atoi` with its error dropped (`i, _ := strconv.Atoi(...)`): an
optional sign and decimal digits; `0` on a syntax error, the nearest 64-bit value on a range
error. -/
def Atoi (s : List Nat) : Int :=
  let neg : Bool := s.head? = some 45
  let digits : List Nat := if s.head? = some 45 ∨ s.head? = some 43 then s.drop 1 else s
  if digits = [] then 0
  else
    match parseUint digits 0 with
    | none => 0
    | some un =>
      if neg then (if un > 2 ^ 63 then -(2 ^ 63) else -(un : Int))
      else (if un ≥ 2 ^ 63 then 2 ^ 63 - 1 else (un : Int))

/-- The constant `bufio.MaxScanTokenSize` (64 KiB). -/
def MaxScanTokenSize : Nat := 65536

/-- The sizes the buffer of a `bufio.Scanner` goes through: `startBufSize` (4096 bytes),
doubled each time the buffer is full, up to `MaxScanTokenSize`. -/
def scanBufSizes : List Nat := [4096, 8192, 16384, 32768, 65536]

/-- The function `dropCR` of `bufio`: the data without one trailing carriage return. -/
def dropCR (data : List Nat) : List Nat :=
  if data.getLast? = some 13 then data.dropLast else data

/-- The loop of `Scanner.Scan` with the split function `ScanLines`, on the buffer sizes still
to come: the buffer is filled from the input; if it holds a newline the token is the line
before it; if the input ended before the buffer was full the token is the unterminated last
line; otherwise the buffer is enlarged, and with no size left the scan fails (`ErrTooLong`).
The result is the token and the input left, which starts after the whole buffer: what the
Scanner has read beyond the line is gone with the Scanner. -/
def scanFill : List Nat → List Nat → Option (List Nat × List Nat)
  | [], _ => none
  | size :: sizes, input =>
    let buf := input.take size
    if buf.contains LF then some (dropCR (buf.takeWhile (fun c => c != LF)), input.drop size)
    else if input.length < size then some (dropCR buf, [])
    else scanFill sizes input

/-- One `scanner.Scan()` on the fresh `bufio.Scanner` of line 253: `none` when `Scan` returns
false (at end of input, or when the first `MaxScanTokenSize` bytes hold no newline), else the
text of the line and the input left to later reads. -/
def scanLine (input : List Nat) : Option (List Nat × List Nat) :=
  if input = [] then none else scanFill scanBufSizes input

/-- The variables of the execution loop together with the two streams of the process. -/
structure Machine where
  pc : Int
  ps : stack
  cs : stack
  heap : List (Int × Int)
  input : List Nat
  output : List Char
  deriving DecidableEq

/-- The run-time panics the loop can raise. -/
inductive Panic where
  | indexOutOfRange
  | divideByZero
  | unknownOpcode
  deriving DecidableEq, Repr

/-- What one round of the loop `for { ... }` at line 187 leads to: the loop goes on, the
process ends through `os.Exit(status)`, or the process dies of a panic. The machine recorded
with a panic is the one at the moment of the panic. -/
inductive Outcome where
  | running (m : Machine)
  | exited (status : Nat) (m : Machine)
  | panicked (p : Panic) (m : Machine)
  deriving DecidableEq

/-- The state at line 187 before the first round. -/
def Machine.init (input : List Nat) : Machine :=
  { pc := 0, ps := [], cs := [], heap := [], input := input, output := [] }

/-- The index expression `tokens[pc]`: `none` when Go panics with an index out of range. -/
def fetch (tokens : opcodes) (pc : Int) : Option opcode :=
  if pc < 0 then none else tokens.get? pc.toNat

/-- The body of an arithmetic case: `rhs := ps.pop(); lhs := ps.pop(); ps.push(f lhs rhs)`. -/
def binop (f : Int → Int → Int) (m : Machine) : Machine :=
  let r := m.ps.pop
  let l := r.2.pop
  { m with ps := l.2.push (f l.1 r.1) }

/-- One round of the loop at line 187: fetch, `pc++`, dispatch. After a successful fetch
`pc` is below the length of `tokens`, so `pc++` cannot overflow. -/
def step (tokens : opcodes) (m : Machine) : Outcome :=
  match fetch tokens m.pc with
  | none => .panicked .indexOutOfRange m
  | some token =>
    let arg := token.arg
    let m := { m with pc := m.pc + 1 }
    match token.code with
    | .Push => .running { m with ps := m.ps.push arg }
    | .Mark => .running m
    | .Dup => .running { m with ps := m.ps.dup }
    | .OutN =>
      let r := m.ps.pop
      .running { m with ps := r.2, output := m.output ++ printInt r.1 }
    | .OutC =>
      let r := m.ps.pop
      .running { m with ps := r.2, output := m.output ++ runeString r.1 }
    | .Add => .running (binop (fun lhs rhs => wrap64 (lhs + rhs)) m)
    | .Sub => .running (binop (fun lhs rhs => wrap64 (lhs - rhs)) m)
    | .Mul => .running (binop (fun lhs rhs => wrap64 (lhs * rhs)) m)
    | .Div =>
      let r := m.ps.pop
      let l := r.2.pop
      if r.1 = 0 then .panicked .divideByZero { m with ps := l.2 }
      else .running { m with ps := l.2.push (wrap64 (Int.tdiv l.1 r.1)) }
    | .Mod =>
      let r := m.ps.pop
      let l := r.2.pop
      if r.1 = 0 then .panicked .divideByZero { m with ps := l.2 }
      else .running { m with ps := l.2.push (wrap64 (Int.tmod l.1 r.1)) }
    | .Jz =>
      let r := m.ps.pop
      if r.1 = 0 then .running { m with ps := r.2, pc := jmp tokens arg m.pc }
      else .running { m with ps := r.2 }
    | .Jn =>
      let r := m.ps.pop
      if r.1 < 0 then .running { m with ps := r.2, pc := jmp tokens arg m.pc }
      else .running { m with ps := r.2 }
    | .Jump => .running { m with pc := jmp tokens arg m.pc }
    | .Discard => .running { m with ps := m.ps.pop.2 }
    | .Exit => .exited 0 m
    | .Store =>
      let v := m.ps.pop
      let address := v.2.pop
      .running { m with ps := address.2, heap := heapSet m.heap address.1 v.1 }
    | .Call => .running { m with cs := m.cs.push m.pc, pc := jmp tokens arg m.pc }
    | .Retrieve =>
      let r := m.ps.pop
      .running { m with ps := r.2.push (heapGet m.heap r.1) }
    | .Ret =>
      let r := m.cs.pop
      .running { m with cs := r.2, pc := r.1 }
    | .InC =>
      let b : Int := ((m.input.head?.getD 0 : Nat) : Int)
      let r := m.ps.pop
      .running { m with input := m.input.drop 1, ps := r.2, heap := heapSet m.heap r.1 b }
    | .InN =>
      match scanLine m.input with
      | some (line, rest) =>
        let r := m.ps.pop
        .running { m with input := rest, ps := r.2, heap := heapSet m.heap r.1 (Atoi line) }
      -- a failed `Scan` has read all there was, or a full buffer without a newline
      | none => .running { m with input := m.input.drop MaxScanTokenSize }
    | .Swap =>
      match m.ps with
      | a :: b :: rest => .running { m with ps := b :: a :: rest }
      | _ => .panicked .indexOutOfRange m
    | _ => .panicked .unknownOpcode m

/-- The first `n` rounds of the loop at line 187, or fewer when the process ends before. -/
def run (tokens : opcodes) : Nat → Machine → Outcome
  | 0, m => .running m
  | n + 1, m =>
    match step tokens m with
    | .running m1 => run tokens n m1
    | o => o

/-- The function `whitespace` on source `src` with `input` on standard input, observed after
at most `n` rounds of the execution loop. -/
def whitespace (src : List Nat) (input : List Nat) (n : Nat) : Option Outcome :=
  (decode src).map (fun tokens => run tokens n (Machine.init input))

/-! ## Notions used to state the properties -/

/-- The bytes the comment loop keeps: space, tab and newline. -/
def isBlank (b : Nat) : Bool := b == SP || b == TAB || b == LF

/-- One step of reading a binary number: the digit `c` is appended to the number `acc`
(a tab is the digit 1, any other byte the digit 0). -/
def binStep (acc : Nat) (c : Nat) : Nat := 2 * acc + (if c = TAB then 1 else 0)

/-- The number denoted by the digits `d`, most significant first (space = 0, tab = 1); the
empty sequence denotes 0. -/
def binValue (d : List Nat) : Nat := d.foldl binStep 0

/-- The address at which the round at hand assigns `heap` (the case `Store`, the case `InC`,
and the case `InN` when a line is read), if there is one. -/
def storeTarget (tokens : opcodes) (m : Machine) : Option Int :=
  match fetch tokens m.pc with
  | none => none
  | some token =>
    match token.code with
    | .Store => some m.ps.pop.2.pop.1
    | .InC => some m.ps.pop.1
    | .InN =>
      match scanLine m.input with
      | some _ => some m.ps.pop.1
      | none => none
    | _ => none

/-- None of the first `n` rounds from `m` on assigns `heap[a]`. -/
def untouched (tokens : opcodes) (a : Int) : Nat → Machine → Bool
  | 0, _ => true
  | n + 1, m =>
    (storeTarget tokens m != some a) &&
      (match step tokens m with
       | .running m1 => untouched tokens a n m1
       | _ => true)

/-- A text without its optional sign `+` or `-`. -/
def afterSign (s : List Nat) : List Nat :=
  if s.head? = some 45 ∨ s.head? = some 43 then s.drop 1 else s

/-- A valid decimal integer in text form: an optional sign `+` or `-` followed by at least one
decimal digit and nothing else. -/
def isDecimal (s : List Nat) : Bool :=
  let digits := if s.head? = some 45 ∨ s.head? = some 43 then s.drop 1 else s
  !digits.isEmpty && digits.all (fun c => decide (48 ≤ c ∧ c ≤ 57))

/-- The number denoted by the decimal digits a text begins with, up to its first byte that is
not a digit (0 when it begins with none). -/
def leadingNumber (s : List Nat) : Nat :=
  (s.takeWhile (fun c => decide (48 ≤ c ∧ c ≤ 57))).foldl (fun n c => n * 10 + (c - 48)) 0

/-- The source text of the program `Push 5, Push 7, Store, Push 5, op, Push 5, Retrieve, OutN,
Exit`, where `op` is the codeword given: 7 is stored at address 5, `op` is executed with the
address 5 on top of the stack, and the value then found at address 5 is written. -/
def readProbe (op : List Nat) : List Nat :=
  [SP, SP, SP, TAB, SP, TAB, LF] ++ [SP, SP, SP, TAB, TAB, TAB, LF] ++ [TAB, TAB, SP] ++
  [SP, SP, SP, TAB, SP, TAB, LF] ++ op ++ [SP, SP, SP, TAB, SP, TAB, LF] ++ [TAB, TAB, TAB] ++
  [TAB, LF, SP, TAB] ++ [LF, LF, LF]

/-- The program of the scenario `Mark 1, Push 1, OutN, Jump 1`. -/
def loopProgram : opcodes := [⟨.Mark, 1⟩, ⟨.Push, 1⟩, ⟨.OutN, 0⟩, ⟨.Jump, 1⟩]

/-! # Properties -/

/-! ### UTF-8 decoding never yields a blank for a byte of 0x80 and above -/


theorem and_mask (x n : Nat) (m : Nat) (hm : m = 2 ^ n - 1) : x &&& m = x % 2 ^ n := by
  subst hm; exact Nat.and_pow_two_sub_one_eq_mod x n

theorem shl_or (x y i : Nat) (hy : y < 2 ^ i) : (x <<< i) ||| y = 2 ^ i * x + y := by
  rw [Nat.shiftLeft_eq, Nat.mul_comm]; exact (Nat.mul_add_lt_is_or hy x).symm

theorem isComment_of_ge {r : Nat} (h : 0x80 ≤ r) : isComment r = true := by
  have h1 : r ≠ 32 := by omega
  have h2 : r ≠ 9 := by omega
  have h3 : r ≠ 10 := by omega
  simp [isComment, h1, h2, h3]

theorem rune2_ge (p0 b1 : Nat) (h0 : 0xC2 ≤ p0) (h1 : p0 < 0xE0) :
    0x80 ≤ ((p0 &&& 0x1F) <<< 6) ||| (b1 &&& 0x3F) := by
  rw [and_mask p0 5 0x1F (by norm_num), and_mask b1 6 0x3F (by norm_num),
    shl_or _ _ 6 (Nat.mod_lt _ (by norm_num))]
  omega

theorem rune3_ge (p0 b1 b2 : Nat) (h0 : 0xE0 ≤ p0) (h1 : p0 < 0xF0)
    (hb : p0 = 0xE0 → 0xA0 ≤ b1) (hb1 : b1 ≤ 0xBF) :
    0x80 ≤ ((p0 &&& 0x0F) <<< 12) ||| ((b1 &&& 0x3F) <<< 6) ||| (b2 &&& 0x3F) := by
  rw [and_mask p0 4 0x0F (by norm_num), and_mask b1 6 0x3F (by norm_num),
    and_mask b2 6 0x3F (by norm_num), Nat.or_assoc,
    shl_or (b1 % 2 ^ 6) _ 6 (Nat.mod_lt _ (by norm_num)),
    shl_or (p0 % 2 ^ 4) _ 12 (by have := Nat.mod_lt b1 (show 0 < 2 ^ 6 by norm_num); have := Nat.mod_lt b2 (show 0 < 2 ^ 6 by norm_num); omega)]
  by_cases h : p0 = 0xE0
  · have := hb h
    omega
  · omega

theorem rune4_ge (p0 b1 b2 b3 : Nat) (h0 : 0xF0 ≤ p0) (h1 : p0 ≤ 0xF4)
    (hb : p0 = 0xF0 → 0x90 ≤ b1) (hb1 : b1 ≤ 0xBF) :
    0x80 ≤ ((p0 &&& 0x07) <<< 18) ||| ((b1 &&& 0x3F) <<< 12) ||| ((b2 &&& 0x3F) <<< 6)
      ||| (b3 &&& 0x3F) := by
  have m1 := Nat.mod_lt b1 (show 0 < 2 ^ 6 by norm_num)
  have m2 := Nat.mod_lt b2 (show 0 < 2 ^ 6 by norm_num)
  have m3 := Nat.mod_lt b3 (show 0 < 2 ^ 6 by norm_num)
  have e3 := shl_or (b2 % 2 ^ 6) _ 6 m3
  have e2 := shl_or (b1 % 2 ^ 6) (2 ^ 6 * (b2 % 2 ^ 6) + b3 % 2 ^ 6) 12 (by omega)
  have e1 := shl_or (p0 % 2 ^ 3)
    (2 ^ 12 * (b1 % 2 ^ 6) + (2 ^ 6 * (b2 % 2 ^ 6) + b3 % 2 ^ 6)) 18 (by omega)
  rw [and_mask p0 3 0x07 (by norm_num), and_mask b1 6 0x3F (by norm_num),
    and_mask b2 6 0x3F (by norm_num), and_mask b3 6 0x3F (by norm_num), Nat.or_assoc,
    Nat.or_assoc, e3, e2, e1]
  by_cases h : p0 = 0xF0
  · have := hb h
    omega
  · omega

theorem DecodeRune_ge (b : Nat) (t : List Nat) (hb : 0x80 ≤ b) :
    0x80 ≤ (DecodeRune (b :: t)).1 := by
  have hE : 0x80 ≤ (RuneError, 1).1 := by show 0x80 ≤ RuneError; unfold RuneError; omega
  have hE' : 0x80 ≤ RuneError := hE
  unfold DecodeRune
  simp only
  rw [if_neg (by omega)]
  by_cases h1 : b < 0xC2 ∨ 0xF4 < b
  · rw [if_pos h1]; exact hE
  rw [if_neg h1]
  by_cases h2 : b < 0xE0
  · simp only [if_pos h2, le_refl, if_true]
    split_ifs <;> first | exact hE | (exfalso; omega) | skip
    all_goals rcases t with _ | ⟨b1, t1⟩
    all_goals simp only
    all_goals try split_ifs
    all_goals first | exact hE | exact hE' | exact rune2_ge b b1 (by omega) h2
  by_cases h3 : b < 0xF0
  · simp only [if_neg h2, if_pos h3, le_refl, if_true, show ¬ (3 ≤ 2) by omega, if_false]
    split_ifs <;> first | exact hE | (exfalso; omega) | skip
    all_goals rcases t with _ | ⟨b1, t1⟩
    all_goals simp only
    all_goals try split_ifs
    all_goals first | exact hE | exact hE' | skip
    all_goals rcases t1 with _ | ⟨b2, t2⟩
    all_goals simp only
    all_goals try split_ifs
    all_goals first | exact hE | exact hE' | (apply rune3_ge <;> omega)
  · simp only [if_neg h2, if_neg h3, show ¬ (4 ≤ 2) by omega, show ¬ (4 ≤ 3) by omega, if_false]
    split_ifs <;> first | exact hE | (exfalso; omega) | skip
    all_goals rcases t with _ | ⟨b1, t1⟩
    all_goals simp only
    all_goals try split_ifs
    all_goals first | exact hE | exact hE' | skip
    all_goals rcases t1 with _ | ⟨b2, t2⟩
    all_goals simp only
    all_goals try split_ifs
    all_goals first | exact hE | exact hE' | skip
    all_goals rcases t2 with _ | ⟨b3, t3⟩
    all_goals simp only
    all_goals try split_ifs
    all_goals first | exact hE | exact hE' | (apply rune4_ge <;> omega)

/-! ### The comment filter -/

theorem isComment_eq_not_isBlank (b : Nat) : isComment b = !isBlank b := by
  simp [isComment, isBlank, Bool.not_or, bne]

theorem indexFuncFrom_spec (fuel : Nat) : ∀ (s : List Nat) (start : Nat), s.length ≤ fuel →
    (indexFuncFrom isComment fuel s start = none ∧ ∀ b ∈ s, isComment b = false) ∨
    (∃ pre c post, s = pre ++ c :: post ∧ (∀ b ∈ pre, isComment b = false) ∧
      isComment c = true ∧ indexFuncFrom isComment fuel s start = some (start + pre.length)) := by
  induction fuel with
  | zero =>
    intro s start h
    have : s = [] := List.length_eq_zero.mp (Nat.le_zero.mp h)
    subst this
    left; simp [indexFuncFrom]
  | succ n ih =>
    intro s start h
    cases s with
    | nil => left; simp [indexFuncFrom]
    | cons b t =>
      by_cases hb : 0x80 ≤ b
      · right
        refine ⟨[], b, t, rfl, by simp, isComment_of_ge hb, ?_⟩
        have := isComment_of_ge (DecodeRune_ge b t hb)
        simp [indexFuncFrom, hb, this]
      · by_cases hc : isComment b = true
        · right
          refine ⟨[], b, t, rfl, by simp, hc, ?_⟩
          simp [indexFuncFrom, hb, hc]
        · have hc' : isComment b = false := by simpa using hc
          have hlen : t.length ≤ n := by simpa using h
          have e : indexFuncFrom isComment (n + 1) (b :: t) start
              = indexFuncFrom isComment n t (start + 1) := by
            simp [indexFuncFrom, hb, hc']
          rcases ih t (start + 1) hlen with ⟨h1, h2⟩ | ⟨pre, c, post, h1, h2, h3, h4⟩
          · left
            refine ⟨by rw [e, h1], ?_⟩
            intro x hx
            rcases List.mem_cons.mp hx with rfl | hx
            · exact hc'
            · exact h2 x hx
          · right
            refine ⟨b :: pre, c, post, by simp [h1], ?_, h3, ?_⟩
            · intro x hx
              rcases List.mem_cons.mp hx with rfl | hx
              · exact hc'
              · exact h2 x hx
            · rw [e, h4]; simp; omega

theorem filter_blank_of_no_comment (s : List Nat) (h : ∀ b ∈ s, isComment b = false) :
    s.filter isBlank = s := by
  apply List.filter_eq_self.mpr
  intro b hb
  have := h b hb
  rw [isComment_eq_not_isBlank] at this
  simpa using this

theorem stripLoop_eq_filter (fuel : Nat) : ∀ (src : List Nat),
    (src.filter isComment).length < fuel → stripLoop fuel src = some (src.filter isBlank) := by
  induction fuel with
  | zero => intro src h; omega
  | succ n ih =>
    intro src h
    rcases indexFuncFrom_spec src.length src 0 (le_refl _) with
      ⟨h1, h2⟩ | ⟨pre, c, post, h1, h2, h3, h4⟩
    · have e : IndexFunc src isComment = none := h1
      simp only [stripLoop, e]
      rw [filter_blank_of_no_comment src h2]
    · have e : IndexFunc src isComment = some pre.length := by
        unfold IndexFunc; rw [h4]; simp
      have hpre : pre.filter isComment = [] := by
        apply List.filter_eq_nil_iff.mpr
        intro b hb; simp [h2 b hb]
      have hcb : isBlank c = false := by
        have := h3; rw [isComment_eq_not_isBlank] at this; simpa using this
      have hcount : ((pre ++ post).filter isComment).length < n := by
        rw [h1] at h
        simp [List.filter_append, List.filter_cons, h3, hpre] at h ⊢
        omega
      have hres : (pre ++ post).filter isBlank = src.filter isBlank := by
        rw [h1]; simp [List.filter_append, List.filter_cons, hcb]
      simp only [stripLoop, e]
      split_ifs with h0
      · have hp : pre = [] := List.length_eq_zero.mp h0
        subst hp
        have : src.drop 1 = [] ++ post := by rw [h1]; simp
        rw [this, ih _ hcount, hres]
      · have : src.take pre.length ++ src.drop (pre.length + 1) = pre ++ post := by
          rw [h1]; simp
        rw [this, ih _ hcount, hres]

theorem strip_eq_filter (src : List Nat) : strip src = some (src.filter isBlank) := by
  unfold strip
  apply stripLoop_eq_filter
  have := List.length_filter_le isComment src
  omega

/-! ### Binary arguments -/

theorem wrap64_id (x : Int) (h1 : -(2 ^ 63) ≤ x) (h2 : x < 2 ^ 63) : wrap64 x = x := by
  unfold wrap64; omega

theorem foldl_binStep_ge (d : List Nat) : ∀ a : Nat, a ≤ d.foldl binStep a := by
  induction d with
  | nil => intro a; simp
  | cons c d ih =>
    intro a
    simp only [List.foldl_cons]
    have := ih (binStep a c)
    unfold binStep at this ⊢
    omega

theorem foldl_binStep_lt (d : List Nat) : ∀ a : Nat, d.foldl binStep a < (a + 1) * 2 ^ d.length := by
  induction d with
  | nil => intro a; simp
  | cons c d ih =>
    intro a
    simp only [List.foldl_cons, List.length_cons]
    have h := ih (binStep a c)
    have h2 : (binStep a c + 1) * 2 ^ d.length ≤ (a + 1) * 2 ^ (d.length + 1) := by
      have : binStep a c + 1 ≤ (a + 1) * 2 := by unfold binStep; split_ifs <;> omega
      calc (binStep a c + 1) * 2 ^ d.length ≤ ((a + 1) * 2) * 2 ^ d.length :=
            Nat.mul_le_mul_right _ this
        _ = (a + 1) * 2 ^ (d.length + 1) := by ring
    omega

theorem binValue_lt (d : List Nat) (h : d.length ≤ 63) : binValue d < 2 ^ 63 := by
  have h1 := foldl_binStep_lt d 0
  have h2 : 2 ^ d.length ≤ 2 ^ 63 := Nat.pow_le_pow_right (by norm_num) h
  unfold binValue
  omega

theorem scanArg_digits (rest : List Nat) (d : List Nat) : ∀ a : Nat,
    (∀ c ∈ d, c = SP ∨ c = TAB) → d.foldl binStep a < 2 ^ 63 →
    scanArg (d ++ LF :: rest) (a : Int) = (((d.foldl binStep a : Nat) : Int), some rest) := by
  induction d with
  | nil => intro a _ _; simp [scanArg]
  | cons c d ih =>
    intro a hd hlt
    have hc := hd c (List.mem_cons_self _ _)
    have hd' : ∀ x ∈ d, x = SP ∨ x = TAB := fun x hx => hd x (List.mem_cons_of_mem _ hx)
    simp only [List.foldl_cons] at hlt ⊢
    have hge := foldl_binStep_ge d (binStep a c)
    rcases hc with rfl | rfl
    · have e : wrap64 ((a : Int) * 2) = ((binStep a SP : Nat) : Int) := by
        have hb : binStep a SP < 2 ^ 63 := Nat.lt_of_le_of_lt hge hlt
        have : binStep a SP = 2 * a := by simp [binStep]
        rw [this] at hb ⊢
        rw [wrap64_id] <;> push_cast <;> omega
      simp only [List.cons_append, scanArg, if_true]
      rw [e]; exact ih _ hd' hlt
    · have e : wrap64 ((a : Int) * 2 + 1) = ((binStep a TAB : Nat) : Int) := by
        have hb : binStep a TAB < 2 ^ 63 := Nat.lt_of_le_of_lt hge hlt
        have : binStep a TAB = 2 * a + 1 := by simp [binStep]
        rw [this] at hb ⊢
        rw [wrap64_id] <;> push_cast <;> omega
      simp only [List.cons_append, scanArg, if_true]
      rw [if_neg (by decide)]
      rw [e]; exact ih _ hd' hlt

theorem scanArg_unterminated (d : List Nat) : ∀ a : Nat,
    (∀ c ∈ d, c = SP ∨ c = TAB) → d.foldl binStep a < 2 ^ 63 →
    scanArg d (a : Int) = (((d.foldl binStep a : Nat) : Int), none) := by
  induction d with
  | nil => intro a _ _; simp [scanArg]
  | cons c d ih =>
    intro a hd hlt
    have hc := hd c (List.mem_cons_self _ _)
    have hd' : ∀ x ∈ d, x = SP ∨ x = TAB := fun x hx => hd x (List.mem_cons_of_mem _ hx)
    simp only [List.foldl_cons] at hlt ⊢
    have hge := foldl_binStep_ge d (binStep a c)
    rcases hc with rfl | rfl
    · have e : wrap64 ((a : Int) * 2) = ((binStep a SP : Nat) : Int) := by
        have hb : binStep a SP < 2 ^ 63 := Nat.lt_of_le_of_lt hge hlt
        have : binStep a SP = 2 * a := by simp [binStep]
        rw [this] at hb ⊢
        rw [wrap64_id] <;> push_cast <;> omega
      simp only [scanArg, if_true]
      rw [e]; exact ih _ hd' hlt
    · have e : wrap64 ((a : Int) * 2 + 1) = ((binStep a TAB : Nat) : Int) := by
        have hb : binStep a TAB < 2 ^ 63 := Nat.lt_of_le_of_lt hge hlt
        have : binStep a TAB = 2 * a + 1 := by simp [binStep]
        rw [this] at hb ⊢
        rw [wrap64_id] <;> push_cast <;> omega
      simp only [scanArg, if_true]
      rw [if_neg (by decide)]
      rw [e]; exact ih _ hd' hlt

/-! ### The tokenising loop -/

theorem lexLoop_nil (order : Nat → List (List Nat × Op)) (fuel : Nat) (toks : opcodes) :
    lexLoop order fuel [] toks = some toks := by
  cases fuel <;> simp [lexLoop]

theorem lexLoop_succ (order : Nat → List (List Nat × Op)) (fuel : Nat) (c : Nat)
    (src : List Nat) (toks : opcodes) :
    lexLoop order (fuel + 1) (c :: src) toks =
      if (matchOp (order fuel) (c :: src)).1 = [] then lexLoop order fuel src toks
      else lexLoop order fuel
        (readArg (matchOp (order fuel) (c :: src)).2
          ((c :: src).drop (matchOp (order fuel) (c :: src)).1.length)).2
        (toks ++ [⟨(matchOp (order fuel) (c :: src)).2,
          (readArg (matchOp (order fuel) (c :: src)).2
            ((c :: src).drop (matchOp (order fuel) (c :: src)).1.length)).1⟩]) := by
  simp [lexLoop]

theorem scanArg_length (s : List Nat) : ∀ (a v : Int) (rest : List Nat),
    scanArg s a = (v, some rest) → rest.length < s.length := by
  induction s with
  | nil => intro a v rest h; simp [scanArg] at h
  | cons c s ih =>
    intro a v rest h
    simp only [scanArg] at h
    split_ifs at h with h1 h2 h3
    · have := ih _ _ _ h; simp; omega
    · have := ih _ _ _ h; simp; omega
    · simp at h; rw [← h.2]; simp
    · have := ih _ _ _ h; simp; omega

theorem signedArg_length (src : List Nat) : (signedArg src).2.length ≤ src.length := by
  unfold signedArg
  split
  · rename_i arg rest h
    have := scanArg_length _ _ _ _ h
    simp at this ⊢; omega
  · simp

theorem unsignedArg_length (src : List Nat) : (unsignedArg src).2.length ≤ src.length := by
  unfold unsignedArg
  split
  · rename_i arg rest h
    have := scanArg_length _ _ _ _ h
    simp; omega
  · simp

theorem readArg_length (code : Op) (src : List Nat) :
    (readArg code src).2.length ≤ src.length := by
  cases code <;> simp [readArg, signedArg_length, unsignedArg_length]

/-- The tokenising loop ends: with at least as much fuel as the stream has bytes the result is
some instruction sequence, whatever the orders in which the table is iterated. -/
theorem lexLoop_total (order : Nat → List (List Nat × Op)) (fuel : Nat) :
    ∀ (src : List Nat) (toks : opcodes), src.length ≤ fuel →
      ∃ r, lexLoop order fuel src toks = some r := by
  induction fuel with
  | zero =>
    intro src toks h
    have : src = [] := List.length_eq_zero.mp (Nat.le_zero.mp h)
    subst this
    exact ⟨toks, lexLoop_nil _ _ _⟩
  | succ n ih =>
    intro src toks h
    cases src with
    | nil => exact ⟨toks, lexLoop_nil _ _ _⟩
    | cons c src =>
      rw [lexLoop_succ]
      have hlen : src.length ≤ n := by simpa using h
      split_ifs with hm
      · exact ih _ _ hlen
      · apply ih
        refine le_trans (readArg_length _ _) ?_
        have : 0 < (matchOp (order n) (c :: src)).1.length := List.length_pos.mpr hm
        simp only [List.length_drop, List.length_cons]
        omega

/-- With the table iterated in a fixed order the result of the loop does not depend on the
amount of fuel, once there is enough of it. -/
theorem lexLoop_fuel (tbl : List (List Nat × Op)) (fuel : Nat) :
    ∀ (src : List Nat) (toks : opcodes), src.length ≤ fuel →
      lexLoop (fun _ => tbl) fuel src toks = lexLoop (fun _ => tbl) src.length src toks := by
  induction fuel using Nat.strong_induction_on with
  | _ fuel ih =>
    intro src toks h
    cases src with
    | nil => rw [lexLoop_nil, lexLoop_nil]
    | cons c src =>
      obtain ⟨n, rfl⟩ : ∃ n, fuel = n + 1 := ⟨fuel - 1, by simp at h; omega⟩
      have hlen : src.length ≤ n := by simpa using h
      simp only [List.length_cons]
      rw [lexLoop_succ, lexLoop_succ]
      split_ifs with hm
      · exact ih n (by omega) _ _ hlen
      · have hr : (readArg (matchOp tbl (c :: src)).2
            ((c :: src).drop (matchOp tbl (c :: src)).1.length)).2.length ≤ src.length := by
          refine le_trans (readArg_length _ _) ?_
          have : 0 < (matchOp tbl (c :: src)).1.length := List.length_pos.mpr hm
          simp only [List.length_drop, List.length_cons]
          omega
        rw [ih n (by omega) _ _ (le_trans hr hlen), ih src.length (by omega) _ _ hr]

theorem lex_total (src : List Nat) : ∃ r, lex src = some r :=
  lexLoop_total _ _ _ _ (le_refl _)

theorem decode_total (src : List Nat) : ∃ r, decode src = some r := by
  unfold decode
  rw [strip_eq_filter]
  exact lex_total _

theorem decode_of_blank (src : List Nat) (h : ∀ b ∈ src, isBlank b = true) :
    decode src = lex src := by
  unfold decode
  rw [strip_eq_filter, List.filter_eq_self.mpr h]
  rfl

/-- One codeword whose argument ends the stream is lexed to one instruction. -/
theorem lex_single (src k : List Nat) (code : Op) (arg : Int)
    (hm : matchOp optable src = (k, code)) (hk : k ≠ [])
    (ha : readArg code (src.drop k.length) = (arg, [])) :
    lex src = some [⟨code, arg⟩] := by
  cases src with
  | nil =>
    have : matchOp optable [] = ([], .Nop) := by decide
    rw [this] at hm
    exact absurd (congrArg Prod.fst hm).symm hk
  | cons c src =>
    unfold lex
    simp only [List.length_cons]
    rw [lexLoop_succ, hm]
    simp only [hk, if_false, ha, List.nil_append]
    exact lexLoop_nil _ _ _

theorem isBlank_of_digit {c : Nat} (h : c = SP ∨ c = TAB) : isBlank c = true := by
  rcases h with rfl | rfl <;> decide

/-- C1 (comment transparency): the comment loop of `whitespace` leaves exactly the bytes that
are a space, a tab or a newline, so a source and the source without its other bytes decode
(successfully) to the same instruction sequence; inserting bytes that are none of the three
anywhere in a source does not change what it decodes to. -/
theorem C1_comment_transparency (src : List Nat) :
    strip src = some (src.filter isBlank) ∧
    decode src = decode (src.filter isBlank) ∧
    (∃ toks, decode src = some toks) ∧
    (∀ pre junk post : List Nat, (∀ b ∈ junk, isBlank b = false) →
      decode (pre ++ junk ++ post) = decode (pre ++ post)) := by
  refine ⟨strip_eq_filter src, ?_, decode_total src, ?_⟩
  · unfold decode
    rw [strip_eq_filter, strip_eq_filter, List.filter_filter]
    simp
  · intro pre junk post h
    have hj : junk.filter isBlank = [] := by
      apply List.filter_eq_nil_iff.mpr
      intro b hb; simp [h b hb]
    unfold decode
    rw [strip_eq_filter, strip_eq_filter]
    simp [List.filter_append, hj]

/-- Witness of C1 on a source with a three-byte comment between a codeword and its argument. -/
theorem C1_comment_transparency_witness :
    decode ([32, 32] ++ [0xE3, 0x81, 0x82] ++ [32, 9, 10]) = decode ([32, 32] ++ [32, 9, 10]) :=
  (C1_comment_transparency []).2.2.2 [32, 32] [0xE3, 0x81, 0x82] [32, 9, 10] (by decide)

/-- C2 (Push argument): the stream made of the codeword space-space, a sign flag `s`, at most
63 binary digits `d` and a newline is lexed to the single instruction `Push v`, where `v` is
the binary value of `d` (most significant digit first, space = 0, tab = 1, no digit = 0),
negated when the sign flag is a tab. -/
theorem C2_push_argument (s : Nat) (d : List Nat) (hs : s = SP ∨ s = TAB)
    (hd : ∀ c ∈ d, c = SP ∨ c = TAB) (hlen : d.length ≤ 63) :
    decode ([SP, SP] ++ s :: d ++ [LF]) =
      some [⟨.Push, if s = TAB then -(binValue d : Int) else (binValue d : Int)⟩] := by
  have hv := binValue_lt d hlen
  rw [decode_of_blank]
  · apply lex_single _ [SP, SP] .Push
    · simp [matchOp, optable, List.isPrefixOf]
    · simp
    · have e := scanArg_digits [] d 0 hd hv
      simp only [Nat.cast_zero] at e
      rcases hs with rfl | rfl
      · simp [readArg, signedArg, e, binValue]
      · have hw : wrap64 (-((List.foldl binStep 0 d : Nat) : Int)) = -((binValue d : Nat) : Int) := by
          unfold binValue at hv ⊢
          rw [wrap64_id] <;> omega
        simp [readArg, signedArg, e, hw]
  · intro b hb
    simp only [List.cons_append, List.nil_append, List.mem_cons, List.mem_append,
      List.mem_singleton, List.not_mem_nil, or_false] at hb
    rcases hb with rfl | rfl | rfl | hb | rfl
    · decide
    · decide
    · exact isBlank_of_digit hs
    · exact isBlank_of_digit (hd b hb)
    · decide

/-- Witness of C2: space-space followed by space, tab, newline is lexed to `Push 1`. -/
theorem C2_push_argument_witness : decode [32, 32, 32, 9, 10] = some [⟨.Push, 1⟩] :=
  C2_push_argument 32 [9] (by decide) (by decide) (by decide)

/-- C3 (label argument): for each of the codewords of `Mark`, `Call`, `Jump`, `Jz` and `Jn`
(all of them keys of `optable`), the stream made of the codeword, at most 63 binary digits `d`
and a newline is lexed to the single instruction of that opcode whose argument is the
unsigned binary value of `d` (most significant digit first, space = 0, tab = 1, no digit =
0); there is no sign flag. -/
theorem C3_label_argument (k : List Nat) (code : Op) (d : List Nat)
    (hk : (k, code) ∈ [([LF, SP, SP], Op.Mark), ([LF, SP, TAB], Op.Call),
      ([LF, SP, LF], Op.Jump), ([LF, TAB, SP], Op.Jz), ([LF, TAB, TAB], Op.Jn)])
    (hd : ∀ c ∈ d, c = SP ∨ c = TAB) (hlen : d.length ≤ 63) :
    (k, code) ∈ optable ∧
    decode (k ++ d ++ [LF]) = some [⟨code, (binValue d : Int)⟩] := by
  have hv := binValue_lt d hlen
  have e := scanArg_digits [] d 0 hd hv
  simp only [Nat.cast_zero] at e
  have hb : ∀ b ∈ d ++ [LF], isBlank b = true := by
    intro b hb
    rcases List.mem_append.mp hb with hb | hb
    · exact isBlank_of_digit (hd b hb)
    · simp at hb; subst hb; decide
  simp only [List.mem_cons, Prod.mk.injEq, List.mem_singleton, List.not_mem_nil, or_false] at hk
  rcases hk with ⟨rfl, rfl⟩ | ⟨rfl, rfl⟩ | ⟨rfl, rfl⟩ | ⟨rfl, rfl⟩ | ⟨rfl, rfl⟩
  all_goals
    refine ⟨by decide, ?_⟩
    rw [decode_of_blank]
    · refine lex_single _ _ _ _ (by simp [matchOp, optable, List.isPrefixOf]; rfl) (by simp) ?_
      simp [readArg, unsignedArg, e, binValue]
    · intro b hb'
      simp only [List.cons_append, List.nil_append, List.mem_cons, List.append_assoc] at hb'
      rcases hb' with rfl | rfl | rfl | hb'
      · decide
      · decide
      · decide
      · exact hb b hb'

/-- Witness of C3: the codeword of `Jump` followed by tab, space, newline is lexed to
`Jump 2`, and the codeword of `Mark` followed at once by a newline to `Mark 0`. -/
theorem C3_label_argument_witness :
    decode [10, 32, 10, 9, 32, 10] = some [⟨.Jump, 2⟩] ∧
    decode [10, 32, 32, 10] = some [⟨.Mark, 0⟩] :=
  ⟨(C3_label_argument [10, 32, 10] .Jump [9, 32] (by decide) (by decide) (by decide)).2,
   (C3_label_argument [10, 32, 32] .Mark [] (by decide) (by decide) (by decide)).2⟩

/-! ### The codeword table -/

theorem optable_keys_free :
    ∀ e1 ∈ optable, ∀ e2 ∈ optable, e1.1 <+: e2.1 → e1 = e2 := by
  decide

theorem optable_match_unique (src : List Nat) (e1 e2 : List Nat × Op)
    (h1 : e1 ∈ optable) (h2 : e2 ∈ optable) (p1 : e1.1 <+: src) (p2 : e2.1 <+: src) :
    e1 = e2 := by
  rcases List.prefix_or_prefix_of_prefix p1 p2 with h | h
  · exact optable_keys_free e1 h1 e2 h2 h
  · exact (optable_keys_free e2 h2 e1 h1 h).symm

theorem matchOp_spec (tbl : List (List Nat × Op)) (src : List Nat) :
    (∃ e ∈ tbl, e.1 <+: src ∧ matchOp tbl src = e) ∨
    ((∀ e ∈ tbl, ¬ e.1 <+: src) ∧ matchOp tbl src = ([], .Nop)) := by
  induction tbl with
  | nil => right; simp [matchOp]
  | cons e tbl ih =>
    obtain ⟨k, v⟩ := e
    by_cases h : k.isPrefixOf src = true
    · left
      exact ⟨(k, v), List.mem_cons_self _ _, List.isPrefixOf_iff_prefix.mp h, by simp [matchOp, h]⟩
    · have e : matchOp ((k, v) :: tbl) src = matchOp tbl src := by simp [matchOp, h]
      rcases ih with ⟨e', he', hp, hm⟩ | ⟨hn, hm⟩
      · left; exact ⟨e', List.mem_cons_of_mem _ he', hp, by rw [e, hm]⟩
      · right
        refine ⟨?_, by rw [e, hm]⟩
        intro x hx
        rcases List.mem_cons.mp hx with rfl | hx
        · intro hp; exact h (List.isPrefixOf_iff_prefix.mpr hp)
        · exact hn x hx

/-- The table lookup does not depend on the order in which the table is iterated. -/
theorem matchOp_perm (tbl : List (List Nat × Op)) (h : tbl.Perm optable) (src : List Nat) :
    matchOp tbl src = matchOp optable src := by
  rcases matchOp_spec tbl src with ⟨e, he, hp, hm⟩ | ⟨hn, hm⟩ <;>
    rcases matchOp_spec optable src with ⟨e', he', hp', hm'⟩ | ⟨hn', hm'⟩
  · rw [hm, hm']; exact optable_match_unique src e e' (h.mem_iff.mp he) he' hp hp'
  · exact absurd hp (hn' e (h.mem_iff.mp he))
  · exact absurd hp' (hn e' (h.mem_iff.mpr he'))
  · rw [hm, hm']

theorem lexLoop_perm (order : Nat → List (List Nat × Op)) (h : ∀ n, (order n).Perm optable)
    (fuel : Nat) : ∀ (src : List Nat) (toks : opcodes),
      lexLoop order fuel src toks = lexLoop (fun _ => optable) fuel src toks := by
  induction fuel with
  | zero => intro src toks; rfl
  | succ n ih =>
    intro src toks
    cases src with
    | nil => rw [lexLoop_nil, lexLoop_nil]
    | cons c src =>
      rw [lexLoop_succ, lexLoop_succ, matchOp_perm (order n) (h n)]
      split_ifs <;> exact ih _ _

/-- C4 (codewords are unambiguous): no key of `optable` is a proper beginning of another key
(two entries one of whose keys begins the other are the same entry); hence at most one entry
has a key that a stream begins with; and the tokenising loop gives the same result whatever
order the table is iterated in at each round, in particular the one of the source text. -/
theorem C4_codewords_unambiguous :
    (∀ e1 ∈ optable, ∀ e2 ∈ optable, e1.1 <+: e2.1 → e1 = e2) ∧
    (∀ src : List Nat, ∀ e1 ∈ optable, ∀ e2 ∈ optable,
      e1.1.isPrefixOf src = true → e2.1.isPrefixOf src = true → e1 = e2) ∧
    (∀ order : Nat → List (List Nat × Op), (∀ n, (order n).Perm optable) →
      ∀ (fuel : Nat) (src : List Nat) (toks : opcodes),
        lexLoop order fuel src toks = lexLoop (fun _ => optable) fuel src toks) := by
  refine ⟨optable_keys_free, ?_, ?_⟩
  · intro src e1 h1 e2 h2 p1 p2
    exact optable_match_unique src e1 e2 h1 h2 (List.isPrefixOf_iff_prefix.mp p1)
      (List.isPrefixOf_iff_prefix.mp p2)
  · intro order h fuel src toks
    exact lexLoop_perm order h fuel src toks

/-- Witness of C4: the key of `Push` begins no other key than itself, and iterating the table
backwards at every round lexes `Push 1` followed by `Exit` as the source order does. -/
theorem C4_codewords_unambiguous_witness :
    (([SP, SP], Op.Push) : List Nat × Op) = ([SP, SP], Op.Push) ∧
    lexLoop (fun _ => optable.reverse) 8 [32, 32, 32, 9, 10, 10, 10, 10] [] =
      some [⟨.Push, 1⟩, ⟨.Exit, 0⟩] :=
  ⟨C4_codewords_unambiguous.1 ([SP, SP], .Push) (by decide) ([SP, SP], .Push) (by decide)
      (List.prefix_refl _),
   (C4_codewords_unambiguous.2.2 (fun _ => optable.reverse) (fun _ => List.reverse_perm _) 8
      [32, 32, 32, 9, 10, 10, 10, 10] []).trans (by decide)⟩


theorem lexLoop_acc (order : Nat → List (List Nat × Op)) (fuel : Nat) :
    ∀ (src : List Nat) (toks : opcodes),
      lexLoop order fuel src toks = (lexLoop order fuel src []).map (fun r => toks ++ r) := by
  induction fuel with
  | zero =>
    intro src toks
    cases src <;> simp [lexLoop]
  | succ n ih =>
    intro src toks
    cases src with
    | nil => simp [lexLoop_nil]
    | cons c src =>
      rw [lexLoop_succ, lexLoop_succ]
      split_ifs
      · exact ih _ _
      · rw [ih _ (toks ++ _), ih _ ([] ++ _)]
        simp [Option.map_map, Function.comp_def]

/-- Every instruction the tokenising loop adds carries an opcode that is a value of the
table. -/
theorem lexLoop_codes (fuel : Nat) : ∀ (src : List Nat) (toks r : opcodes),
    lexLoop (fun _ => optable) fuel src toks = some r →
      ∀ t ∈ r, t ∈ toks ∨ ∃ e ∈ optable, e.2 = t.code := by
  induction fuel with
  | zero =>
    intro src toks r h t ht
    cases src with
    | nil => simp [lexLoop] at h; subst h; exact Or.inl ht
    | cons c src => simp [lexLoop] at h
  | succ n ih =>
    intro src toks r h t ht
    cases src with
    | nil => rw [lexLoop_nil] at h; simp at h; subst h; exact Or.inl ht
    | cons c src =>
      rw [lexLoop_succ] at h
      split_ifs at h with hm
      · exact ih _ _ _ h t ht
      · rcases ih _ _ _ h t ht with h1 | h1
        · rcases List.mem_append.mp h1 with h2 | h2
          · exact Or.inl h2
          · right
            simp only [List.mem_singleton] at h2
            rcases matchOp_spec optable (c :: src) with ⟨e, he, _, hme⟩ | ⟨_, hme⟩
            · exact ⟨e, he, by rw [h2, hme]⟩
            · rw [hme] at hm; exact absurd rfl hm
        · exact Or.inr h1

theorem matchOp_none_iff (src : List Nat) :
    (∀ e ∈ optable, e.1.isPrefixOf src = false) ↔ (matchOp optable src).1 = [] := by
  constructor
  · intro h
    rcases matchOp_spec optable src with ⟨e, he, hp, _⟩ | ⟨_, hme⟩
    · have := h e he
      rw [List.isPrefixOf_iff_prefix.mpr hp] at this
      exact absurd this (by simp)
    · rw [hme]
  · intro h e he
    rcases matchOp_spec optable src with ⟨e', he', hp', hme'⟩ | ⟨hn, _⟩
    · rw [hme'] at h
      have : ∀ x ∈ optable, x.1 ≠ [] := by decide
      exact absurd h (this e' he')
    · have := hn e he
      cases hb : e.1.isPrefixOf src
      · rfl
      · exact absurd (List.isPrefixOf_iff_prefix.mp hb) this

/-- Counterexample to C5 as stated: the codeword space-tab-space (resp. space-tab-newline)
followed by the binary digit 1 and a newline is lexed to the empty instruction sequence
(resp. to the single instruction `Ret`), not to `Copy 1` (resp. `Slide 1`). -/
theorem C5_copy_slide_counterexample :
    decode ([SP, TAB, SP] ++ [TAB] ++ [LF]) = some [] ∧
    decode ([SP, TAB, SP] ++ [TAB] ++ [LF]) ≠ some [⟨.Copy, 1⟩] ∧
    decode ([SP, TAB, LF] ++ [TAB] ++ [LF]) = some [⟨.Ret, 0⟩] ∧
    decode ([SP, TAB, LF] ++ [TAB] ++ [LF]) ≠ some [⟨.Slide, 1⟩] := by
  decide

/-- C5 amended (Copy and Slide are not decoded): no entry of `optable` has the opcode `Copy`
or `Slide`; no codeword begins with space-tab, so at a stream that begins with
space-tab-space or space-tab-newline no codeword matches and the lexer passes over the
leading space; and no source decodes to a sequence that contains `Copy` or `Slide`. -/
theorem C5_copy_slide_absent :
    (∀ e ∈ optable, e.2 ≠ Op.Copy ∧ e.2 ≠ Op.Slide) ∧
    (∀ r : List Nat, matchOp optable (SP :: TAB :: r) = ([], .Nop) ∧
      lex (SP :: TAB :: r) = lex (TAB :: r)) ∧
    (∀ (src : List Nat) (toks : opcodes), decode src = some toks →
      ∀ t ∈ toks, t.code ≠ .Copy ∧ t.code ≠ .Slide) := by
  have h1 : ∀ e ∈ optable, e.2 ≠ Op.Copy ∧ e.2 ≠ Op.Slide := by decide
  refine ⟨h1, ?_, ?_⟩
  · intro r
    have hm : matchOp optable (SP :: TAB :: r) = ([], .Nop) := by
      simp [matchOp, optable, List.isPrefixOf]
    refine ⟨hm, ?_⟩
    unfold lex
    simp only [List.length_cons]
    rw [lexLoop_succ, hm]
    simp
  · intro src toks h t ht
    unfold decode at h
    rw [strip_eq_filter] at h
    rcases lexLoop_codes _ _ _ _ h t ht with h2 | ⟨e, he, h2⟩
    · simp at h2
    · rw [← h2]; exact h1 e he

/-- Witness of C5 amended: space-tab-space followed by the digits space, tab and a newline
decodes to `Sub`, which is neither `Copy` nor `Slide`. -/
theorem C5_copy_slide_absent_witness :
    decode [32, 9, 32, 32, 9, 10] = some [⟨.Sub, 0⟩] ∧
    ((⟨.Sub, 0⟩ : opcode).code ≠ .Copy ∧ (⟨.Sub, 0⟩ : opcode).code ≠ .Slide) :=
  ⟨by decide,
   C5_copy_slide_absent.2.2 [32, 9, 32, 32, 9, 10] [⟨.Sub, 0⟩] (by decide) ⟨.Sub, 0⟩
     (List.mem_singleton.mpr rfl)⟩

/-- Counterexample to C6 as stated: no codeword begins the stream tab-newline-newline-newline,
yet lexing it does not fail: the tab is passed over and the instruction `Exit` is produced. -/
theorem C6_strict_lexing_counterexample :
    (∀ e ∈ optable, e.1.isPrefixOf [TAB, LF, LF, LF] = false) ∧
    decode [TAB, LF, LF, LF] = some [⟨.Exit, 0⟩] := by
  decide

/-- C6 amended (lenient lexing): if no codeword of the table begins the remaining stream, the
round of the tokenising loop drops the first character of the stream, keeps the instructions
produced so far and the loop goes on; lexing a stream that begins so is lexing its tail, and
it yields an instruction sequence (there is no lexical error). -/
theorem C6_lenient_lexing (c : Nat) (src : List Nat)
    (h : ∀ e ∈ optable, e.1.isPrefixOf (c :: src) = false) :
    (∀ (fuel : Nat) (toks : opcodes),
      lexLoop (fun _ => optable) (fuel + 1) (c :: src) toks =
        lexLoop (fun _ => optable) fuel src toks) ∧
    lex (c :: src) = lex src ∧
    ∃ r, lex (c :: src) = some r := by
  have hm := (matchOp_none_iff (c :: src)).mp h
  have hs : ∀ (fuel : Nat) (toks : opcodes),
      lexLoop (fun _ => optable) (fuel + 1) (c :: src) toks =
        lexLoop (fun _ => optable) fuel src toks := by
    intro fuel toks
    rw [lexLoop_succ, if_pos hm]
  refine ⟨hs, ?_, lex_total _⟩
  unfold lex
  simp only [List.length_cons]
  exact hs _ _

/-- Witness of C6 amended on the stream tab-newline-newline-newline. -/
theorem C6_lenient_lexing_witness :
    lex [TAB, LF, LF, LF] = lex [LF, LF, LF] :=
  (C6_lenient_lexing TAB [LF, LF, LF] (by decide)).2.1

/-- Counterexample to C7 as stated: the codeword of `Mark` followed by two spaces that run to
the end of the stream is lexed without failure: `Mark 0` is emitted, and the two spaces are
then read again as the codeword of `Push`. -/
theorem C7_unterminated_argument_counterexample :
    decode ([LF, SP, SP] ++ [SP, SP]) = some [⟨.Mark, 0⟩, ⟨.Push, 0⟩] := by
  decide

/-- C7 amended (unterminated argument): for each of the six codewords that take an argument,
followed by spaces and tabs `d` that run to the end of the stream, lexing does not fail and
the first instruction produced is the one of that codeword, with the argument the argument
loop has accumulated; for at most 63 characters this argument is the unsigned binary value of
`d` (for `Push`: of `d` without its first character, the sign flag, which is not applied). -/
theorem C7_unterminated_argument (k : List Nat) (code : Op) (d : List Nat)
    (hk : (k, code) ∈ [([SP, SP], Op.Push), ([LF, SP, SP], Op.Mark), ([LF, SP, TAB], Op.Call),
      ([LF, SP, LF], Op.Jump), ([LF, TAB, SP], Op.Jz), ([LF, TAB, TAB], Op.Jn)])
    (hd : ∀ c ∈ d, c = SP ∨ c = TAB) :
    (∃ rest, decode (k ++ d) = some (⟨code, (readArg code d).1⟩ :: rest)) ∧
    (d.length ≤ 63 →
      (readArg code d).1 = (binValue (if code = Op.Push then d.drop 1 else d) : Int)) := by
  have hkb : ∀ b ∈ k, isBlank b = true := by
    simp only [List.mem_cons, Prod.mk.injEq, List.mem_singleton, List.not_mem_nil,
      or_false] at hk
    rcases hk with ⟨rfl, _⟩ | ⟨rfl, _⟩ | ⟨rfl, _⟩ | ⟨rfl, _⟩ | ⟨rfl, _⟩ | ⟨rfl, _⟩ <;> decide
  have hblank : ∀ b ∈ k ++ d, isBlank b = true := by
    intro b hb
    rcases List.mem_append.mp hb with hb | hb
    · exact hkb b hb
    · exact isBlank_of_digit (hd b hb)
  have hm : matchOp optable (k ++ d) = (k, code) ∧ k ≠ [] ∧
      ∃ c r, k ++ d = c :: r ∧ d.length ≤ r.length := by
    simp only [List.mem_cons, Prod.mk.injEq, List.mem_singleton, List.not_mem_nil,
      or_false] at hk
    rcases hk with ⟨rfl, rfl⟩ | ⟨rfl, rfl⟩ | ⟨rfl, rfl⟩ | ⟨rfl, rfl⟩ | ⟨rfl, rfl⟩ | ⟨rfl, rfl⟩
    all_goals
      refine ⟨by simp [matchOp, optable, List.isPrefixOf], by simp, _, _, rfl, ?_⟩
      simp <;> omega
  obtain ⟨hm1, hm2, c, r, hcr, hlen⟩ := hm
  constructor
  · rw [decode_of_blank _ hblank]
    unfold lex
    have hl : (k ++ d).length = r.length + 1 := by rw [hcr]; simp
    rw [hl, hcr, lexLoop_succ, ← hcr, hm1]
    simp only [hm2, if_false, List.drop_left, List.nil_append]
    rw [lexLoop_acc]
    obtain ⟨r', hr'⟩ := lexLoop_total (fun _ => optable) r.length (readArg code d).2 []
      (le_trans (readArg_length _ _) hlen)
    exact ⟨r', by rw [hr']; rfl⟩
  · intro h63
    simp only [List.mem_cons, Prod.mk.injEq, List.mem_singleton, List.not_mem_nil,
      or_false] at hk
    have hu : (unsignedArg d).1 = (binValue d : Int) := by
      have := scanArg_unterminated d 0 hd (binValue_lt d h63)
      simp only [Nat.cast_zero] at this
      simp [unsignedArg, this, binValue]
    rcases hk with ⟨_, rfl⟩ | ⟨_, rfl⟩ | ⟨_, rfl⟩ | ⟨_, rfl⟩ | ⟨_, rfl⟩ | ⟨_, rfl⟩
    · have hd' : ∀ c ∈ d.drop 1, c = SP ∨ c = TAB := fun c hc => hd c (List.mem_of_mem_drop hc)
      have := scanArg_unterminated (d.drop 1) 0 hd'
        (binValue_lt _ (by rw [List.length_drop]; omega))
      simp only [Nat.cast_zero] at this
      simp only [readArg, signedArg, this, binValue, if_true]
    all_goals simpa [readArg] using hu

/-- Witness of C7 amended: the argument loop of `Jump` on the unterminated digits tab, space
accumulates 2. -/
theorem C7_unterminated_argument_witness : (readArg Op.Jump [TAB, SP]).1 = 2 :=
  (C7_unterminated_argument [LF, SP, LF] .Jump [TAB, SP] (by decide) (by decide)).2 (by decide)

/-! ### Jumps -/

/-- The loop body of `jmp`. -/
theorem jmp_eq_foldl (p : opcodes) (arg pc : Int) :
    jmp p arg pc = (List.enumFrom 0 p).foldl
      (fun pc it => if it.2.code = Op.Mark ∧ it.2.arg = arg then (it.1 : Int) else pc) pc := rfl

theorem jmp_foldl_none (arg : Int) (p : opcodes) : ∀ (n : Nat) (pc : Int),
    (∀ t ∈ p, ¬ (t.code = Op.Mark ∧ t.arg = arg)) →
    (List.enumFrom n p).foldl
      (fun pc it => if it.2.code = Op.Mark ∧ it.2.arg = arg then (it.1 : Int) else pc) pc
      = pc := by
  induction p with
  | nil => intro n pc _; rfl
  | cons t p ih =>
    intro n pc h
    simp only [List.enumFrom_cons, List.foldl_cons]
    rw [if_neg (h t (List.mem_cons_self _ _))]
    exact ih _ _ (fun x hx => h x (List.mem_cons_of_mem _ hx))

theorem jmp_foldl_last (arg : Int) (pre post : opcodes)
    (hpost : ∀ t ∈ post, ¬ (t.code = Op.Mark ∧ t.arg = arg)) : ∀ (n : Nat) (pc : Int),
    (List.enumFrom n (pre ++ ⟨Op.Mark, arg⟩ :: post)).foldl
      (fun pc it => if it.2.code = Op.Mark ∧ it.2.arg = arg then (it.1 : Int) else pc) pc
      = ((n + pre.length : Nat) : Int) := by
  induction pre with
  | nil =>
    intro n pc
    simp only [List.nil_append, List.enumFrom_cons, List.foldl_cons, and_self, if_true,
      List.length_nil, Nat.add_zero]
    exact jmp_foldl_none arg post _ _ hpost
  | cons t pre ih =>
    intro n pc
    simp only [List.cons_append, List.enumFrom_cons, List.foldl_cons, List.length_cons]
    rw [ih]
    congr 1
    omega

/-- Without a `Mark` for the label, `jmp` leaves the program counter as it is. -/
theorem jmp_unresolved (p : opcodes) (arg pc : Int)
    (h : ∀ t ∈ p, ¬ (t.code = Op.Mark ∧ t.arg = arg)) : jmp p arg pc = pc := by
  rw [jmp_eq_foldl]; exact jmp_foldl_none arg p 0 pc h

/-- With a `Mark` for the label, `jmp` sets the program counter to the index of the last
one. -/
theorem jmp_last (pre post : opcodes) (arg pc : Int)
    (hpost : ∀ t ∈ post, ¬ (t.code = Op.Mark ∧ t.arg = arg)) :
    jmp (pre ++ ⟨Op.Mark, arg⟩ :: post) arg pc = (pre.length : Int) := by
  rw [jmp_eq_foldl, jmp_foldl_last arg pre post hpost]; simp

/-- A sequence that contains `Mark L` splits at the last `Mark L`. -/
theorem exists_last_mark (p : opcodes) (L : Int) (h : (⟨Op.Mark, L⟩ : opcode) ∈ p) :
    ∃ pre post, p = pre ++ ⟨Op.Mark, L⟩ :: post ∧
      ∀ t ∈ post, ¬ (t.code = Op.Mark ∧ t.arg = L) := by
  induction p with
  | nil => simp at h
  | cons t p ih =>
    by_cases hp : (⟨Op.Mark, L⟩ : opcode) ∈ p
    · obtain ⟨pre, post, e, hpost⟩ := ih hp
      exact ⟨t :: pre, post, by rw [e]; rfl, hpost⟩
    · have ht : t = ⟨Op.Mark, L⟩ := by
        rcases List.mem_cons.mp h with h | h
        · exact h.symm
        · exact absurd h hp
      refine ⟨[], p, by rw [ht]; rfl, ?_⟩
      intro x hx hx2
      apply hp
      have : x = ⟨Op.Mark, L⟩ := by
        cases x; simp only at hx2; rw [hx2.1, hx2.2]
      rw [← this]; exact hx

/-- C8 (later declaration wins): if some instruction is `Mark L`, then there is a largest
index `i` with `Mark L` at it, `jmp` on `L` sets the program counter to `i`, and so does
executing `Jump L`, `Call L` (which also pushes the return address), a `Jz L` whose popped
value is 0 and a `Jn L` whose popped value is negative. -/
theorem C8_later_declaration_wins (tokens : opcodes) (L : Int)
    (h : (⟨Op.Mark, L⟩ : opcode) ∈ tokens) :
    ∃ i : Nat, tokens.get? i = some ⟨Op.Mark, L⟩ ∧
      (∀ j, i < j → tokens.get? j ≠ some ⟨Op.Mark, L⟩) ∧
      (∀ pc, jmp tokens L pc = (i : Int)) ∧
      (∀ m : Machine, fetch tokens m.pc = some ⟨.Jump, L⟩ →
        step tokens m = .running { m with pc := (i : Int) }) ∧
      (∀ m : Machine, fetch tokens m.pc = some ⟨.Call, L⟩ →
        step tokens m = .running { m with cs := (m.pc + 1) :: m.cs, pc := (i : Int) }) ∧
      (∀ m : Machine, fetch tokens m.pc = some ⟨.Jz, L⟩ → m.ps.pop.1 = 0 →
        step tokens m = .running { m with ps := m.ps.pop.2, pc := (i : Int) }) ∧
      (∀ m : Machine, fetch tokens m.pc = some ⟨.Jn, L⟩ → m.ps.pop.1 < 0 →
        step tokens m = .running { m with ps := m.ps.pop.2, pc := (i : Int) }) := by
  obtain ⟨pre, post, e, hpost⟩ := exists_last_mark tokens L h
  have hj : ∀ pc, jmp tokens L pc = (pre.length : Int) := by
    intro pc; rw [e]; exact jmp_last pre post L pc hpost
  refine ⟨pre.length, ?_, ?_, hj, ?_, ?_, ?_, ?_⟩
  · rw [e, List.get?_eq_getElem?, List.getElem?_append_right (le_refl _)]; simp
  · intro j hlt hget
    rw [e, List.get?_eq_getElem?, List.getElem?_append_right (by omega)] at hget
    obtain ⟨k, hk⟩ : ∃ k, j - pre.length = k + 1 := ⟨j - pre.length - 1, by omega⟩
    rw [hk, List.getElem?_cons_succ] at hget
    have hmem := List.getElem?_mem hget
    exact hpost _ hmem ⟨rfl, rfl⟩
  · intro m hf
    simp [step, hf, hj]
  · intro m hf
    simp [step, hf, hj, stack.push]
  · intro m hf hz
    simp [step, hf, hj, hz]
  · intro m hf hn
    simp [step, hf, hj, hn]

/-- Witness of C8 on a program with two `Mark 3`: the jump lands on the second one. -/
theorem C8_later_declaration_wins_witness :
    step [⟨.Jump, 3⟩, ⟨.Mark, 3⟩, ⟨.Push, 1⟩, ⟨.Mark, 3⟩, ⟨.Exit, 0⟩] (Machine.init [])
      = .running { Machine.init [] with pc := 3 } := by
  obtain ⟨i, _, _, hj, hs, _⟩ := C8_later_declaration_wins
    [⟨.Jump, 3⟩, ⟨.Mark, 3⟩, ⟨.Push, 1⟩, ⟨.Mark, 3⟩, ⟨.Exit, 0⟩] 3 (by decide)
  have hi : (i : Int) = 3 := (hj 0).symm.trans (by decide)
  rw [hs (Machine.init []) (by decide), hi]

/-- Counterexample to C9 as stated: in the program `Jump 5, Exit` no instruction is `Mark 5`,
yet executing `Jump 5` does not halt the machine: it goes on with the instruction after the
jump, and the run ends successfully through `Exit`. -/
theorem C9_unresolved_label_counterexample :
    step [⟨.Jump, 5⟩, ⟨.Exit, 0⟩] (Machine.init []) = .running { Machine.init [] with pc := 1 } ∧
    run [⟨.Jump, 5⟩, ⟨.Exit, 0⟩] 2 (Machine.init []) = .exited 0 { Machine.init [] with pc := 2 } := by
  decide

/-- C9 amended (unresolved label): when no instruction of the program is `Mark L`, `jmp` on
`L` leaves the program counter unchanged, so that executing `Jump L`, `Call L` (which still
pushes the return address), a `Jz L` whose popped value is 0 or a `Jn L` whose popped value is
negative does not halt the machine: it keeps running with the instruction after the jump. -/
theorem C9_unresolved_label_continues (tokens : opcodes) (L : Int)
    (h : ∀ t ∈ tokens, ¬ (t.code = Op.Mark ∧ t.arg = L)) :
    (∀ pc, jmp tokens L pc = pc) ∧
    (∀ m : Machine, fetch tokens m.pc = some ⟨.Jump, L⟩ →
      step tokens m = .running { m with pc := m.pc + 1 }) ∧
    (∀ m : Machine, fetch tokens m.pc = some ⟨.Call, L⟩ →
      step tokens m = .running { m with cs := (m.pc + 1) :: m.cs, pc := m.pc + 1 }) ∧
    (∀ m : Machine, fetch tokens m.pc = some ⟨.Jz, L⟩ → m.ps.pop.1 = 0 →
      step tokens m = .running { m with ps := m.ps.pop.2, pc := m.pc + 1 }) ∧
    (∀ m : Machine, fetch tokens m.pc = some ⟨.Jn, L⟩ → m.ps.pop.1 < 0 →
      step tokens m = .running { m with ps := m.ps.pop.2, pc := m.pc + 1 }) := by
  have hj : ∀ pc, jmp tokens L pc = pc := fun pc => jmp_unresolved tokens L pc h
  refine ⟨hj, ?_, ?_, ?_, ?_⟩
  · intro m hf
    simp [step, hf, hj]
  · intro m hf
    simp [step, hf, hj, stack.push]
  · intro m hf hz
    simp [step, hf, hj, hz]
  · intro m hf hn
    simp [step, hf, hj, hn]

/-- Witness of C9 amended: `Call 7` without any `Mark 7` pushes the return address and goes
on with the next instruction. -/
theorem C9_unresolved_label_continues_witness :
    step [⟨.Call, 7⟩, ⟨.Exit, 0⟩] (Machine.init [])
      = .running { Machine.init [] with cs := [1], pc := 1 } :=
  (C9_unresolved_label_continues [⟨.Call, 7⟩, ⟨.Exit, 0⟩] 7 (by decide)).2.2.1
    (Machine.init []) (by decide)

/-- Counterexample to C10 as stated: on the empty stack `Discard` does not halt the machine,
which goes on to a successful `Exit`, and `OutN` writes the text of the value -1 that the
empty pop returns, after which the run ends successfully as well. -/
theorem C10_stack_underflow_counterexample :
    run [⟨.Discard, 0⟩, ⟨.Exit, 0⟩] 2 (Machine.init [])
      = .exited 0 { Machine.init [] with pc := 2 } ∧
    run [⟨.OutN, 0⟩, ⟨.Exit, 0⟩] 2 (Machine.init [])
      = .exited 0 { Machine.init [] with pc := 2, output := ['-', '1'] } := by
  decide

/-- C10 amended (an empty pop yields -1): popping the empty stack yields -1 and leaves the
stack empty; an instruction that pops more than the stack holds is executed as on the stack
completed below with the value -1 for every missing element (`InN` pops only when a line
could be read), and on the empty stack each of these instructions leaves the machine
running. There is no stack-underflow fault. -/
theorem C10_pop_sentinel (tokens : opcodes) (m : Machine) (t : opcode)
    (hf : fetch tokens m.pc = some t) :
    stack.pop [] = (-1, []) ∧
    (t.code ∈ [Op.Discard, Op.Retrieve, Op.Jz, Op.Jn, Op.OutC, Op.OutN, Op.InC] → m.ps = [] →
      step tokens m = step tokens { m with ps := [-1] }) ∧
    (t.code = Op.InN → scanLine m.input ≠ none → m.ps = [] →
      step tokens m = step tokens { m with ps := [-1] }) ∧
    (t.code ∈ [Op.Add, Op.Sub, Op.Mul, Op.Div, Op.Mod, Op.Store] → m.ps = [] →
      step tokens m = step tokens { m with ps := [-1, -1] }) ∧
    (t.code ∈ [Op.Add, Op.Sub, Op.Mul, Op.Div, Op.Mod, Op.Store] → ∀ x, m.ps = [x] →
      step tokens m = step tokens { m with ps := [x, -1] }) ∧
    (t.code ∈ [Op.Discard, Op.Add, Op.Sub, Op.Mul, Op.Div, Op.Mod, Op.Store, Op.Retrieve,
        Op.Jz, Op.Jn, Op.OutC, Op.OutN, Op.InC, Op.InN] → m.ps = [] →
      ∃ m1, step tokens m = .running m1) := by
  obtain ⟨code, arg⟩ := t
  refine ⟨rfl, ?_, ?_, ?_, ?_, ?_⟩
  · intro hc hps
    simp only [List.mem_cons, List.mem_singleton, List.not_mem_nil, or_false] at hc
    rcases hc with rfl | rfl | rfl | rfl | rfl | rfl | rfl <;>
      simp [step, hf, hps, stack.pop, stack.push]
  · intro hc hs hps
    simp only at hc
    subst hc
    cases hsl : scanLine m.input with
    | none => exact absurd hsl hs
    | some lr => simp [step, hf, hps, hsl, stack.pop]
  · intro hc hps
    simp only [List.mem_cons, List.mem_singleton, List.not_mem_nil, or_false] at hc
    rcases hc with rfl | rfl | rfl | rfl | rfl | rfl <;>
      simp [step, hf, hps, stack.pop, stack.push, binop]
  · intro hc x hps
    simp only [List.mem_cons, List.mem_singleton, List.not_mem_nil, or_false] at hc
    rcases hc with rfl | rfl | rfl | rfl | rfl | rfl <;>
      simp [step, hf, hps, stack.pop, stack.push, binop]
  · intro hc hps
    simp only [List.mem_cons, List.mem_singleton, List.not_mem_nil, or_false] at hc
    rcases hc with rfl | rfl | rfl | rfl | rfl | rfl | rfl | rfl | rfl | rfl | rfl | rfl |
      rfl | rfl
    all_goals first
      | (simp [step, hf, hps, stack.pop, stack.push, binop]; done)
      | (simp only [step, hf, hps, stack.pop]; split <;> exact ⟨_, rfl⟩)

/-- Witness of C10 amended: `Store` on the empty stack writes -1 at address -1, `Add` on the
one-element stack `[5]` pushes 4, and `Div` on the empty stack pushes 1. -/
theorem C10_pop_sentinel_witness :
    step [⟨.Store, 0⟩] (Machine.init []) = .running { Machine.init [] with pc := 1, heap := [(-1, -1)] } ∧
    step [⟨.Add, 0⟩] { Machine.init [] with ps := [5] }
      = .running { Machine.init [] with pc := 1, ps := [4] } ∧
    step [⟨.Div, 0⟩] (Machine.init []) = .running { Machine.init [] with pc := 1, ps := [1] } :=
  ⟨((C10_pop_sentinel [⟨.Store, 0⟩] (Machine.init []) ⟨.Store, 0⟩ (by decide)).2.2.2.1
      (by decide) (by decide)).trans (by decide),
   ((C10_pop_sentinel [⟨.Add, 0⟩] { Machine.init [] with ps := [5] } ⟨.Add, 0⟩
      (by decide)).2.2.2.2.1 (by decide) 5 (by decide)).trans (by decide),
   ((C10_pop_sentinel [⟨.Div, 0⟩] (Machine.init []) ⟨.Div, 0⟩ (by decide)).2.2.2.1
      (by decide) (by decide)).trans (by decide)⟩

/-! ### Runs -/

theorem run_of_running (tokens : opcodes) (m m1 : Machine) (n : Nat)
    (h : step tokens m = .running m1) : run tokens (n + 1) m = run tokens n m1 := by
  simp [run, h]

theorem run_of_exited (tokens : opcodes) (m m1 : Machine) (s n : Nat)
    (h : step tokens m = .exited s m1) : run tokens (n + 1) m = .exited s m1 := by
  simp [run, h]

theorem run_of_panicked (tokens : opcodes) (m m1 : Machine) (p : Panic) (n : Nat)
    (h : step tokens m = .panicked p m1) : run tokens (n + 1) m = .panicked p m1 := by
  simp [run, h]

/-- A run that is still going on after `n` rounds is continued by one more round. -/
theorem run_succ (tokens : opcodes) (n : Nat) : ∀ (m m1 : Machine),
    run tokens n m = .running m1 → run tokens (n + 1) m = step tokens m1 := by
  induction n with
  | zero =>
    intro m m1 h
    simp only [run, Outcome.running.injEq] at h
    subst h
    cases hs : step tokens m <;> simp [run, hs]
  | succ n ih =>
    intro m m1 h
    cases hs : step tokens m with
    | running m2 =>
      rw [run_of_running _ _ _ _ hs] at h
      rw [run_of_running _ _ _ _ hs]
      exact ih _ _ h
    | exited s m2 => rw [run_of_exited _ _ _ _ _ hs] at h; simp at h
    | panicked p m2 => rw [run_of_panicked _ _ _ _ _ hs] at h; simp at h

/-- C11 (division by zero): executing `Div` or `Mod` on a stack of at least two elements
whose top is 0 ends the run in the division-by-zero fault of the Go run time: both operands
are popped, nothing is pushed and nothing is written; in particular the program
`Push 7, Push 0, Div, OutN, Exit` ends in this fault with an empty output, for every input
and every number of rounds from 3 on. -/
theorem C11_division_by_zero (tokens : opcodes) (m : Machine) (t : opcode) (lhs : Int)
    (rest : stack) (hf : fetch tokens m.pc = some t) (hc : t.code = Op.Div ∨ t.code = Op.Mod)
    (hps : m.ps = 0 :: lhs :: rest) :
    step tokens m = .panicked .divideByZero { m with pc := m.pc + 1, ps := rest } ∧
    (∀ n, run tokens (n + 1) m = .panicked .divideByZero { m with pc := m.pc + 1, ps := rest }) ∧
    (∀ (input : List Nat) (n : Nat),
      run [⟨.Push, 7⟩, ⟨.Push, 0⟩, ⟨.Div, 0⟩, ⟨.OutN, 0⟩, ⟨.Exit, 0⟩] (n + 3) (Machine.init input)
        = .panicked .divideByZero { Machine.init input with pc := 3 }) := by
  obtain ⟨code, arg⟩ := t
  have hs : step tokens m = .panicked .divideByZero { m with pc := m.pc + 1, ps := rest } := by
    simp only at hc
    rcases hc with rfl | rfl <;> simp [step, hf, hps, stack.pop]
  refine ⟨hs, fun n => run_of_panicked _ _ _ _ _ hs, ?_⟩
  intro input n
  rfl

/-- Witness of C11: `Mod` on the stack with 0 above 7. -/
theorem C11_division_by_zero_witness :
    step [⟨.Mod, 0⟩] { Machine.init [] with ps := [0, 7] }
      = .panicked .divideByZero { Machine.init [] with pc := 1 } :=
  (C11_division_by_zero [⟨.Mod, 0⟩] { Machine.init [] with ps := [0, 7] } ⟨.Mod, 0⟩ 7 []
    (by decide) (by decide) (by decide)).1

/-- The run of the five-instruction program `Push a, Push b, op, OutN, Exit` for an
arithmetic instruction `op` that computes `f`. -/
theorem run_arith (code : Op) (f : Int → Int → Int) (a b : Int) (input : List Nat)
    (hs : ∀ m : Machine, ∀ tokens : opcodes, ∀ arg, fetch tokens m.pc = some ⟨code, arg⟩ →
      m.ps = [b, a] → step tokens m = .running { m with pc := m.pc + 1, ps := [f a b] }) :
    run [⟨.Push, a⟩, ⟨.Push, b⟩, ⟨code, 0⟩, ⟨.OutN, 0⟩, ⟨.Exit, 0⟩] 5 (Machine.init input)
      = .exited 0 { Machine.init input with pc := 5, output := printInt (f a b) } := by
  have h1 : step [⟨.Push, a⟩, ⟨.Push, b⟩, ⟨code, 0⟩, ⟨.OutN, 0⟩, ⟨.Exit, 0⟩] (Machine.init input)
      = .running { Machine.init input with pc := 1, ps := [a] } := rfl
  have h2 : step [⟨.Push, a⟩, ⟨.Push, b⟩, ⟨code, 0⟩, ⟨.OutN, 0⟩, ⟨.Exit, 0⟩]
      { Machine.init input with pc := 1, ps := [a] }
      = .running { Machine.init input with pc := 2, ps := [b, a] } := rfl
  have h3 := hs { Machine.init input with pc := 2, ps := [b, a] }
    [⟨.Push, a⟩, ⟨.Push, b⟩, ⟨code, 0⟩, ⟨.OutN, 0⟩, ⟨.Exit, 0⟩] 0 rfl rfl
  have h4 : step [⟨.Push, a⟩, ⟨.Push, b⟩, ⟨code, 0⟩, ⟨.OutN, 0⟩, ⟨.Exit, 0⟩]
      { Machine.init input with pc := 2 + 1, ps := [f a b] }
      = .running { Machine.init input with pc := 4, output := printInt (f a b) } := by
    simp [step, fetch, stack.pop, Machine.init]
  have h5 : step [⟨.Push, a⟩, ⟨.Push, b⟩, ⟨code, 0⟩, ⟨.OutN, 0⟩, ⟨.Exit, 0⟩]
      { Machine.init input with pc := 4, output := printInt (f a b) }
      = .exited 0 { Machine.init input with pc := 5, output := printInt (f a b) } := rfl
  rw [run_of_running _ _ _ _ h1, run_of_running _ _ _ _ h2, run_of_running _ _ _ _ h3,
    run_of_running _ _ _ _ h4, run_of_exited _ _ _ _ _ h5]

/-- C12 (operand order): with `a` pushed first and `b` on top, the program
`Push a, Push b, OP, OutN, Exit` writes exactly the decimal text of `a OP b` and ends through
`Exit` with status 0, for `OP` one of `Add`, `Sub`, `Mul`, `Div` (the quotient truncated
towards zero) and `Mod` (the remainder of that division), provided the result is
representable in 64 bits and `b` is not 0 for `Div` and `Mod`. -/
theorem C12_operand_order (a b : Int) (input : List Nat) :
    (-(2 ^ 63) ≤ a + b → a + b < 2 ^ 63 →
      run [⟨.Push, a⟩, ⟨.Push, b⟩, ⟨.Add, 0⟩, ⟨.OutN, 0⟩, ⟨.Exit, 0⟩] 5 (Machine.init input)
        = .exited 0 { Machine.init input with pc := 5, output := printInt (a + b) }) ∧
    (-(2 ^ 63) ≤ a - b → a - b < 2 ^ 63 →
      run [⟨.Push, a⟩, ⟨.Push, b⟩, ⟨.Sub, 0⟩, ⟨.OutN, 0⟩, ⟨.Exit, 0⟩] 5 (Machine.init input)
        = .exited 0 { Machine.init input with pc := 5, output := printInt (a - b) }) ∧
    (-(2 ^ 63) ≤ a * b → a * b < 2 ^ 63 →
      run [⟨.Push, a⟩, ⟨.Push, b⟩, ⟨.Mul, 0⟩, ⟨.OutN, 0⟩, ⟨.Exit, 0⟩] 5 (Machine.init input)
        = .exited 0 { Machine.init input with pc := 5, output := printInt (a * b) }) ∧
    (b ≠ 0 → -(2 ^ 63) ≤ Int.tdiv a b → Int.tdiv a b < 2 ^ 63 →
      run [⟨.Push, a⟩, ⟨.Push, b⟩, ⟨.Div, 0⟩, ⟨.OutN, 0⟩, ⟨.Exit, 0⟩] 5 (Machine.init input)
        = .exited 0 { Machine.init input with pc := 5, output := printInt (Int.tdiv a b) }) ∧
    (b ≠ 0 → -(2 ^ 63) ≤ Int.tmod a b → Int.tmod a b < 2 ^ 63 →
      run [⟨.Push, a⟩, ⟨.Push, b⟩, ⟨.Mod, 0⟩, ⟨.OutN, 0⟩, ⟨.Exit, 0⟩] 5 (Machine.init input)
        = .exited 0 { Machine.init input with pc := 5, output := printInt (Int.tmod a b) }) := by
  refine ⟨?_, ?_, ?_, ?_, ?_⟩
  · intro h1 h2
    apply run_arith .Add (fun a b => a + b)
    intro m tokens arg hf hps
    simp [step, hf, hps, binop, stack.pop, stack.push, wrap64_id _ h1 h2]
  · intro h1 h2
    apply run_arith .Sub (fun a b => a - b)
    intro m tokens arg hf hps
    simp [step, hf, hps, binop, stack.pop, stack.push, wrap64_id _ h1 h2]
  · intro h1 h2
    apply run_arith .Mul (fun a b => a * b)
    intro m tokens arg hf hps
    simp [step, hf, hps, binop, stack.pop, stack.push, wrap64_id _ h1 h2]
  · intro hb h1 h2
    apply run_arith .Div (fun a b => Int.tdiv a b)
    intro m tokens arg hf hps
    simp [step, hf, hps, stack.pop, stack.push, hb, wrap64_id _ h1 h2]
  · intro hb h1 h2
    apply run_arith .Mod (fun a b => Int.tmod a b)
    intro m tokens arg hf hps
    simp [step, hf, hps, stack.pop, stack.push, hb, wrap64_id _ h1 h2]

/-- Witness of C12: `Push 7, Push 3, Sub, OutN, Exit` writes `4` and exits with status 0;
`Push -7, Push 2, Div, OutN, Exit` writes `-3`. -/
theorem C12_operand_order_witness :
    run [⟨.Push, 7⟩, ⟨.Push, 3⟩, ⟨.Sub, 0⟩, ⟨.OutN, 0⟩, ⟨.Exit, 0⟩] 5 (Machine.init [])
      = .exited 0 { Machine.init [] with pc := 5, output := ['4'] } ∧
    run [⟨.Push, -7⟩, ⟨.Push, 2⟩, ⟨.Div, 0⟩, ⟨.OutN, 0⟩, ⟨.Exit, 0⟩] 5 (Machine.init [])
      = .exited 0 { Machine.init [] with pc := 5, output := ['-', '3'] } :=
  ⟨(C12_operand_order 7 3 []).2.1 (by decide) (by decide),
   (C12_operand_order (-7) 2 []).2.2.2.1 (by decide) (by decide) (by decide)⟩

/-! ### Memory -/

theorem heapGet_heapSet_same (h : List (Int × Int)) (a v : Int) :
    heapGet (heapSet h a v) a = v := by
  simp [heapGet, heapSet]

theorem heapGet_heapSet_other (h : List (Int × Int)) (a b v : Int) (hne : b ≠ a) :
    heapGet (heapSet h a v) b = heapGet h b := by
  simp [heapGet, heapSet, Ne.symm hne]

/-- A round that does not assign `heap[a]` leaves its value as it is. -/
theorem step_heapGet (tokens : opcodes) (m m1 : Machine) (a : Int)
    (hs : step tokens m = .running m1) (ht : storeTarget tokens m ≠ some a) :
    heapGet m1.heap a = heapGet m.heap a := by
  unfold step at hs
  unfold storeTarget at ht
  cases hf : fetch tokens m.pc with
  | none => rw [hf] at hs; simp at hs
  | some t =>
    obtain ⟨code, arg⟩ := t
    rw [hf] at hs ht
    cases code
    all_goals simp only at hs ht
    all_goals first
      | (simp only [Outcome.running.injEq] at hs; subst hs; rfl)
      | (simp only [Outcome.running.injEq] at hs; subst hs
         apply heapGet_heapSet_other
         intro hh; apply ht; rw [hh])
      | (split_ifs at hs <;> simp only [Outcome.running.injEq] at hs <;> subst hs <;> rfl)
      | (exact absurd hs (by simp))
      | skip
    · -- Swap
      split at hs
      · simp only [Outcome.running.injEq] at hs; subst hs; rfl
      · exact absurd hs (by simp)
    · -- InN
      cases hl : scanLine m.input with
      | none =>
        rw [hl] at hs
        simp only [Outcome.running.injEq] at hs; subst hs; rfl
      | some lr =>
        rw [hl] at hs ht
        simp only [Outcome.running.injEq] at hs; subst hs
        apply heapGet_heapSet_other
        intro hh; apply ht; rw [hh]


/-- As long as no round assigns `heap[a]`, its value stays what it was. -/
theorem run_heapGet (tokens : opcodes) (a : Int) (n : Nat) : ∀ (m m1 : Machine),
    untouched tokens a n m = true → run tokens n m = .running m1 →
      heapGet m1.heap a = heapGet m.heap a := by
  induction n with
  | zero =>
    intro m m1 _ h
    simp only [run, Outcome.running.injEq] at h
    subst h; rfl
  | succ n ih =>
    intro m m1 hu h
    simp only [untouched, Bool.and_eq_true, bne_iff_ne, ne_eq] at hu
    cases hs : step tokens m with
    | running m2 =>
      rw [run_of_running _ _ _ _ hs] at h
      have hu2 := hu.2
      rw [hs] at hu2
      rw [ih m2 m1 hu2 h]
      exact step_heapGet tokens m m2 a hs hu.1
    | exited s m2 => rw [run_of_exited _ _ _ _ _ hs] at h; simp at h
    | panicked p m2 => rw [run_of_panicked _ _ _ _ _ hs] at h; simp at h

/-- C13 (memory read after write): from a state with `v` on top of the stack and `a` beneath
it, the three instructions `Store`, `Push a`, `Retrieve` leave `v` on top of the rest of the
stack; the `Store` round binds `a` to `v` and changes the value read at no other address;
and if none of the first `n` rounds of a run from the initial state has assigned `heap[a]`,
a `Retrieve` executed then with `a` on top of the stack pushes 0. -/
theorem C13_memory_read_after_write (tokens : opcodes) (a : Int) :
    (∀ (m : Machine) (v : Int) (rest : stack) (a1 a3 : Int),
      fetch tokens m.pc = some ⟨.Store, a1⟩ → fetch tokens (m.pc + 1) = some ⟨.Push, a⟩ →
      fetch tokens (m.pc + 1 + 1) = some ⟨.Retrieve, a3⟩ → m.ps = v :: a :: rest →
      run tokens 3 m =
        .running { m with pc := m.pc + 1 + 1 + 1, ps := v :: rest, heap := heapSet m.heap a v }) ∧
    (∀ (m : Machine) (v : Int) (rest : stack) (a1 : Int),
      fetch tokens m.pc = some ⟨.Store, a1⟩ → m.ps = v :: a :: rest →
      ∃ m1, step tokens m = .running m1 ∧ m1.ps = rest ∧ heapGet m1.heap a = v ∧
        ∀ b, b ≠ a → heapGet m1.heap b = heapGet m.heap b) ∧
    (∀ (input : List Nat) (n : Nat) (m : Machine) (rest : stack) (a1 : Int),
      untouched tokens a n (Machine.init input) = true →
      run tokens n (Machine.init input) = .running m →
      fetch tokens m.pc = some ⟨.Retrieve, a1⟩ → m.ps = a :: rest →
      step tokens m = .running { m with pc := m.pc + 1, ps := 0 :: rest }) := by
  refine ⟨?_, ?_, ?_⟩
  · intro m v rest a1 a3 h1 h2 h3 hps
    have s1 : step tokens m =
        .running { m with pc := m.pc + 1, ps := rest, heap := heapSet m.heap a v } := by
      simp [step, h1, hps, stack.pop]
    have s2 : step tokens { m with pc := m.pc + 1, ps := rest, heap := heapSet m.heap a v } =
        .running { m with pc := m.pc + 1 + 1, ps := a :: rest, heap := heapSet m.heap a v } := by
      simp [step, h2, stack.push]
    have s3 :
        step tokens { m with pc := m.pc + 1 + 1, ps := a :: rest, heap := heapSet m.heap a v } =
        .running
          { m with pc := m.pc + 1 + 1 + 1, ps := v :: rest, heap := heapSet m.heap a v } := by
      simp [step, h3, stack.push, stack.pop, heapGet_heapSet_same]
    rw [run_of_running _ _ _ _ s1, run_of_running _ _ _ _ s2, run_of_running _ _ _ _ s3]
    rfl
  · intro m v rest a1 h1 hps
    refine ⟨{ m with pc := m.pc + 1, ps := rest, heap := heapSet m.heap a v }, ?_, rfl,
      heapGet_heapSet_same _ _ _, fun b hb => heapGet_heapSet_other _ _ _ _ hb⟩
    simp [step, h1, hps, stack.pop]
  · intro input n m rest a1 hu hr hf hps
    have h0 : heapGet m.heap a = 0 := by
      rw [run_heapGet tokens a n _ _ hu hr]; rfl
    simp [step, hf, hps, stack.pop, stack.push, h0]

/-- Witness of C13: `Push 5, Push 9, Store, Push 5, Retrieve` leaves 9 on the stack, and
`Push 4, Retrieve` on the fresh memory leaves 0. -/
theorem C13_memory_read_after_write_witness :
    run [⟨.Store, 0⟩, ⟨.Push, 5⟩, ⟨.Retrieve, 0⟩] 3 { Machine.init [] with ps := [9, 5] }
      = .running { Machine.init [] with pc := 3, ps := [9], heap := [(5, 9)] } ∧
    step [⟨.Push, 4⟩, ⟨.Retrieve, 0⟩] { Machine.init [] with pc := 1, ps := [4] }
      = .running { Machine.init [] with pc := 2, ps := [0] } :=
  ⟨(C13_memory_read_after_write [⟨.Store, 0⟩, ⟨.Push, 5⟩, ⟨.Retrieve, 0⟩] 5).1
      { Machine.init [] with ps := [9, 5] } 9 [] 0 0 (by decide) (by decide) (by decide)
      (by decide),
   (C13_memory_read_after_write [⟨.Push, 4⟩, ⟨.Retrieve, 0⟩] 4).2.2 [] 1
      { Machine.init [] with pc := 1, ps := [4] } [] 0 (by decide) (by decide) (by decide)
      (by decide)⟩


/-- A run that is still going on after `k` rounds goes on from the machine reached. -/
theorem run_add (tokens : opcodes) (k : Nat) : ∀ (j : Nat) (m mk : Machine),
    run tokens k m = .running mk → run tokens (k + j) m = run tokens j mk := by
  induction k with
  | zero =>
    intro j m mk h
    simp only [run, Outcome.running.injEq] at h
    subst h; simp
  | succ k ih =>
    intro j m mk h
    cases hs : step tokens m with
    | running m2 =>
      rw [run_of_running _ _ _ _ hs] at h
      have e : k + 1 + j = (k + j) + 1 := by omega
      rw [e, run_of_running _ _ _ _ hs]
      exact ih j m2 mk h
    | exited s m2 => rw [run_of_exited _ _ _ _ _ hs] at h; simp at h
    | panicked p m2 => rw [run_of_panicked _ _ _ _ _ hs] at h; simp at h

/-- The round that executes `Ret` on the empty call stack puts -1, the value of the empty
pop, into the program counter and changes nothing else. -/
theorem step_ret_empty (tokens : opcodes) (m : Machine) (arg : Int)
    (hf : fetch tokens m.pc = some ⟨.Ret, arg⟩) (hcs : m.cs = []) :
    step tokens m = .running { m with pc := -1 } := by
  simp [step, hf, hcs, stack.pop]

/-- C14 (Ret on an empty call stack is a fault): from every state with an empty call stack
whose instruction is `Ret`, executing it ends the run in a run-time fault before any other
instruction is executed: the empty pop leaves the program counter -1, at which the fetch
raises the index fault of the Go run time, with the operand stack, the call stack, the
memory, the input and the output as they were when `Ret` was executed; the run never ends
successfully. In particular the program `Ret` ends in this fault, for every input and every
number of rounds from 2 on, and never terminates successfully. -/
theorem C14_ret_empty_call_stack (tokens : opcodes) (m : Machine) (arg : Int)
    (hf : fetch tokens m.pc = some ⟨.Ret, arg⟩) (hcs : m.cs = []) :
    (∀ n, run tokens (n + 2) m = .panicked .indexOutOfRange { m with pc := -1 }) ∧
    (∀ (n s : Nat) (m1 : Machine), run tokens n m ≠ .exited s m1) ∧
    (∀ (input : List Nat) (n : Nat), run [⟨.Ret, 0⟩] (n + 2) (Machine.init input)
      = .panicked .indexOutOfRange { Machine.init input with pc := -1 }) ∧
    (∀ (input : List Nat) (n s : Nat) (m1 : Machine),
      run [⟨.Ret, 0⟩] n (Machine.init input) ≠ .exited s m1) := by
  have hs := step_ret_empty tokens m arg hf hcs
  have hp : step tokens { m with pc := -1 } = .panicked .indexOutOfRange { m with pc := -1 } := by
    simp [step, fetch]
  have hrun : ∀ n, run tokens (n + 2) m = .panicked .indexOutOfRange { m with pc := -1 } := by
    intro n
    rw [run_of_running _ _ _ _ hs, run_of_panicked _ _ _ _ _ hp]
  refine ⟨hrun, ?_, ?_, ?_⟩
  · intro n s m1
    rcases n with _ | _ | n
    · simp [run]
    · rw [run_of_running _ _ _ _ hs]; simp [run]
    · rw [hrun n]; simp
  · intro input n; rfl
  · intro input n s m1
    rcases n with _ | _ | n
    · simp [run]
    · simp [run, step, fetch, Machine.init, stack.pop]
    · have : run [⟨.Ret, 0⟩] (n + 2) (Machine.init input)
          = .panicked .indexOutOfRange { Machine.init input with pc := -1 } := rfl
      rw [this]; simp

/-- Witness of C14: `Ret` as the second instruction, after a `Push`; the value pushed is
still on the stack when the run has ended in the fault. -/
theorem C14_ret_empty_call_stack_witness :
    run [⟨.Push, 3⟩, ⟨.Ret, 0⟩] 2 { Machine.init [] with pc := 1, ps := [3] }
      = .panicked .indexOutOfRange { Machine.init [] with pc := -1, ps := [3] } :=
  (C14_ret_empty_call_stack [⟨.Push, 3⟩, ⟨.Ret, 0⟩] { Machine.init [] with pc := 1, ps := [3] } 0
    (by decide) (by decide)).1 0

/-- The only round that ends the process through `os.Exit` is the one that executes `Exit`. -/
theorem step_exited (tokens : opcodes) (m m1 : Machine) (s : Nat)
    (h : step tokens m = .exited s m1) :
    s = 0 ∧ (∃ arg, fetch tokens m.pc = some ⟨.Exit, arg⟩) ∧ m1 = { m with pc := m.pc + 1 } := by
  unfold step at h
  cases hf : fetch tokens m.pc with
  | none => rw [hf] at h; simp at h
  | some t =>
    obtain ⟨code, arg⟩ := t
    rw [hf] at h
    cases code
    all_goals simp only at h
    all_goals first
      | (simp at h; done)
      | (split at h <;> simp at h)
      | skip
    simp only [Outcome.exited.injEq] at h
    exact ⟨h.1.symm, ⟨arg, rfl⟩, h.2.symm⟩

/-- A run that has ended through `os.Exit` got there by executing `Exit`. -/
theorem run_exited (tokens : opcodes) (n : Nat) : ∀ (m m1 : Machine) (s : Nat),
    run tokens n m = .exited s m1 →
      s = 0 ∧ ∃ k mk arg, k < n ∧ run tokens k m = .running mk ∧
        fetch tokens mk.pc = some ⟨.Exit, arg⟩ ∧ m1 = { mk with pc := mk.pc + 1 } := by
  induction n with
  | zero => intro m m1 s h; simp [run] at h
  | succ n ih =>
    intro m m1 s h
    cases hs : step tokens m with
    | running m2 =>
      rw [run_of_running _ _ _ _ hs] at h
      obtain ⟨h0, k, mk, arg, hk, hr, hfe, hm⟩ := ih m2 m1 s h
      refine ⟨h0, k + 1, mk, arg, by omega, ?_, hfe, hm⟩
      rw [run_of_running _ _ _ _ hs]; exact hr
    | exited s2 m2 =>
      rw [run_of_exited _ _ _ _ _ hs] at h
      simp only [Outcome.exited.injEq] at h
      obtain ⟨h0, ⟨arg, hfe⟩, hm⟩ := step_exited tokens m m2 s2 hs
      refine ⟨by rw [← h.1]; exact h0, 0, m, arg, by omega, rfl, hfe, ?_⟩
      rw [← h.2]; exact hm
    | panicked p m2 => rw [run_of_panicked _ _ _ _ _ hs] at h; simp at h

theorem fetch_length (tokens : opcodes) : fetch tokens (tokens.length : Int) = none := by
  simp [fetch]

/-- C15 (only Exit halts successfully): a run that has ended successfully has status 0 and
got there by executing an `Exit` instruction in its last round; and whenever a run reaches a
program counter equal to the length of the instruction sequence, the next round ends it with
the index-out-of-range fault of the Go run time, never with success. The empty program ends
so in its first round. -/
theorem C15_only_exit_halts (tokens : opcodes) (m : Machine) :
    (∀ (n s : Nat) (m1 : Machine), run tokens n m = .exited s m1 →
      s = 0 ∧ ∃ k mk arg, k < n ∧ run tokens k m = .running mk ∧
        fetch tokens mk.pc = some ⟨.Exit, arg⟩ ∧ m1 = { mk with pc := mk.pc + 1 }) ∧
    (∀ (k : Nat) (mk : Machine), run tokens k m = .running mk → mk.pc = tokens.length →
      ∀ n, run tokens (k + (n + 1)) m = .panicked .indexOutOfRange mk) ∧
    (∀ (input : List Nat) (n : Nat),
      run [] (n + 1) (Machine.init input) = .panicked .indexOutOfRange (Machine.init input)) := by
  refine ⟨fun n s m1 h => run_exited tokens n m m1 s h, ?_, ?_⟩
  · intro k mk hr hpc n
    rw [run_add tokens k (n + 1) m mk hr]
    apply run_of_panicked
    simp [step, hpc, fetch_length]
  · intro input n; rfl

/-- Witness of C15: `Push 1, Exit` ends with status 0 after executing `Exit` at index 1, and
`Push 1` alone runs off the end. -/
theorem C15_only_exit_halts_witness :
    (0 = 0 ∧ ∃ k mk arg, k < 2 ∧
      run [⟨.Push, 1⟩, ⟨.Exit, 0⟩] k (Machine.init []) = .running mk ∧
      fetch [⟨.Push, 1⟩, ⟨.Exit, 0⟩] mk.pc = some ⟨.Exit, arg⟩ ∧
      ({ Machine.init [] with pc := 2, ps := [1] } : Machine) = { mk with pc := mk.pc + 1 }) ∧
    run [⟨.Push, 1⟩] (1 + (0 + 1)) (Machine.init [])
      = .panicked .indexOutOfRange { Machine.init [] with pc := 1, ps := [1] } :=
  ⟨(C15_only_exit_halts [⟨.Push, 1⟩, ⟨.Exit, 0⟩] (Machine.init [])).1 2 0
      { Machine.init [] with pc := 2, ps := [1] } (by decide),
   (C15_only_exit_halts [⟨.Push, 1⟩] (Machine.init [])).2.1 1
      { Machine.init [] with pc := 1, ps := [1] } (by decide) (by decide) 0⟩


/-! ### Reading numbers -/

theorem foldl_digits_ge (d : List Nat) : ∀ n : Nat,
    n ≤ d.foldl (fun n c => n * 10 + (c - 48)) n := by
  induction d with
  | nil => intro n; simp
  | cons c d ih =>
    intro n
    simp only [List.foldl_cons]
    exact le_trans (by omega) (ih _)

/-- The digit loop rejects a text with a byte that is not a digit, as long as the digits
before that byte do not exceed 64 bits. -/
theorem parseUint_none (d : List Nat) : ∀ n : Nat,
    d.all (fun c => decide (48 ≤ c ∧ c ≤ 57)) = false →
    (d.takeWhile (fun c => decide (48 ≤ c ∧ c ≤ 57))).foldl (fun n c => n * 10 + (c - 48)) n
      < 2 ^ 64 →
    parseUint d n = none := by
  induction d with
  | nil => intro n h _; simp at h
  | cons c d ih =>
    intro n h hb
    by_cases hc : c < 48 ∨ 57 < c
    · simp [parseUint, hc]
    · have hc2 : 48 ≤ c ∧ c ≤ 57 := by omega
      have hd : d.all (fun c => decide (48 ≤ c ∧ c ≤ 57)) = false := by
        simpa [List.all_cons, hc2] using h
      rw [List.takeWhile_cons_of_pos (by simpa using hc2), List.foldl_cons] at hb
      have hge := foldl_digits_ge (d.takeWhile (fun c => decide (48 ≤ c ∧ c ≤ 57)))
        (n * 10 + (c - 48))
      have h3 : ¬ (n * 10 + (c - 48) > 2 ^ 64 - 1) := by omega
      simp only [parseUint, hc, if_false, h3]
      exact ih _ hd hb

/-- A text that is not a valid decimal integer is converted to 0, provided the digits it
begins with (after the sign) denote a number below 2 ^ 64. -/
theorem Atoi_not_decimal (s : List Nat) (h : isDecimal s = false)
    (hv : leadingNumber (afterSign s) < 2 ^ 64) : Atoi s = 0 := by
  unfold isDecimal at h
  unfold afterSign leadingNumber at hv
  unfold Atoi
  simp only at h ⊢
  generalize (if s.head? = some 45 ∨ s.head? = some 43 then s.drop 1 else s) = digits
    at h hv ⊢
  by_cases he : digits = []
  · simp [he]
  · have hall : digits.all (fun c => decide (48 ≤ c ∧ c ≤ 57)) = false := by
      have hne : digits.isEmpty = false := by
        cases digits with
        | nil => exact absurd rfl he
        | cons _ _ => rfl
      simpa [hne] using h
    simp [he, parseUint_none digits 0 hall hv]

/-- When the digits a text begins with exceed 64 bits, the digit loop reports a value out of
range before it meets a later byte that is not a digit: twenty nines followed by the letter x
are converted to the largest 64-bit integer. -/
theorem Atoi_range_before_syntax :
    Atoi (List.replicate 20 57 ++ [120]) = 2 ^ 63 - 1 := by
  decide

/-- With the address `a` on top of the stack, `InN` on a line that is not a valid decimal
integer, and whose leading digits stay below 2 ^ 64, pops `a` and leaves `heap[a] = 0`; the
machine keeps running with the next instruction. -/
theorem step_InN_not_decimal (tokens : opcodes) (m : Machine) (arg a : Int) (rest : stack)
    (line rem : List Nat) (hf : fetch tokens m.pc = some ⟨.InN, arg⟩) (hps : m.ps = a :: rest)
    (hsl : scanLine m.input = some (line, rem)) (hnd : isDecimal line = false)
    (hv : leadingNumber (afterSign line) < 2 ^ 64) :
    step tokens m =
      .running { m with pc := m.pc + 1, ps := rest, input := rem, heap := heapSet m.heap a 0 } := by
  simp [step, hf, hsl, hps, stack.pop, Atoi_not_decimal line hnd hv]

/-- C16 (code bug): at end of input `InN` neither pops the address nor assigns the memory.
The program `Push 5, Push 7, Store, Push 5, InN, Push 5, Retrieve, OutN, Exit` run on the
empty input writes `7` and ends with the address 5 still on the stack: 5 was not popped and
`heap[5]` is not 0. The same program with `InC` in the place of `InN` pops the address and
stores 0 at end of input: it writes `0` and ends with an empty stack. -/
theorem C16_InN_end_of_input :
    decode (readProbe [TAB, LF, TAB, TAB]) =
      some [⟨.Push, 5⟩, ⟨.Push, 7⟩, ⟨.Store, 0⟩, ⟨.Push, 5⟩, ⟨.InN, 0⟩, ⟨.Push, 5⟩,
        ⟨.Retrieve, 0⟩, ⟨.OutN, 0⟩, ⟨.Exit, 0⟩] ∧
    whitespace (readProbe [TAB, LF, TAB, TAB]) [] 9 =
      some (.exited 0 { pc := 9, ps := [5], cs := [], heap := [(5, 7)], input := [],
                        output := ['7'] }) ∧
    whitespace (readProbe [TAB, LF, TAB, SP]) [] 9 =
      some (.exited 0 { pc := 9, ps := [], cs := [], heap := [(5, 0), (5, 7)], input := [],
                        output := ['0'] }) := by
  decide

/-- C17 (Call/Ret pairing): if instruction `i` is `Call L` and some instruction is `Mark L`,
executing the `Call` at program counter `i` pushes `i + 1` on the call stack and sets the
program counter to the index of (the last) `Mark L`, leaving the operand stack, the memory
and the streams unchanged; executing `Ret` with that call stack then sets the program counter
to `i + 1` and leaves the call stack as it was before the `Call`. -/
theorem C17_call_ret_pairing (tokens : opcodes) (L : Int) (i : Nat) (m : Machine)
    (hi : tokens.get? i = some ⟨.Call, L⟩) (hpc : m.pc = (i : Int))
    (hmark : (⟨Op.Mark, L⟩ : opcode) ∈ tokens) :
    ∃ j : Nat, tokens.get? j = some ⟨Op.Mark, L⟩ ∧
      step tokens m = .running { m with cs := ((i : Int) + 1) :: m.cs, pc := (j : Int) } ∧
      ∀ (m2 : Machine) (arg : Int), m2.cs = ((i : Int) + 1) :: m.cs →
        fetch tokens m2.pc = some ⟨.Ret, arg⟩ →
        step tokens m2 = .running { m2 with cs := m.cs, pc := (i : Int) + 1 } := by
  obtain ⟨pre, post, e, hpost⟩ := exists_last_mark tokens L hmark
  have hj : ∀ pc, jmp tokens L pc = (pre.length : Int) := by
    intro pc; rw [e]; exact jmp_last pre post L pc hpost
  have hf : fetch tokens (i : Int) = some ⟨.Call, L⟩ := by
    rw [List.get?_eq_getElem?] at hi
    simp [fetch, hi]
  refine ⟨pre.length, ?_, ?_, ?_⟩
  · rw [e, List.get?_eq_getElem?, List.getElem?_append_right (le_refl _)]; simp
  · simp [step, hf, hj, stack.push, hpc]
  · intro m2 arg hcs hf2
    simp [step, hf2, hcs, stack.pop]

/-- Witness of C17 on `Call 2, Exit, Mark 2, Ret`: the `Ret` reached through the `Call` at
index 0 returns to index 1 with an empty call stack. -/
theorem C17_call_ret_pairing_witness :
    step [⟨.Call, 2⟩, ⟨.Exit, 0⟩, ⟨.Mark, 2⟩, ⟨.Ret, 0⟩]
        { Machine.init [] with cs := [1], pc := 3 }
      = .running { Machine.init [] with pc := 1 } := by
  obtain ⟨j, _, _, hret⟩ := C17_call_ret_pairing
    [⟨.Call, 2⟩, ⟨.Exit, 0⟩, ⟨.Mark, 2⟩, ⟨.Ret, 0⟩] 2 0 (Machine.init [])
    (by decide) (by decide) (by decide)
  exact hret { Machine.init [] with cs := [1], pc := 3 } 0 (by decide) (by decide)

/-- The state of the loop program after `n` rounds. -/
theorem loopProgram_run (input : List Nat) (n : Nat) :
    run loopProgram n (Machine.init input) =
      .running { pc := ((n % 4 : Nat) : Int), ps := if n % 4 = 2 then [1] else [], cs := [],
                 heap := [], input := input, output := List.replicate ((n + 1) / 4) '1' } := by
  induction n with
  | zero => rfl
  | succ n ih =>
    rw [run_succ _ _ _ _ ih]
    have hcase : n % 4 = 0 ∨ n % 4 = 1 ∨ n % 4 = 2 ∨ n % 4 = 3 := by omega
    rcases hcase with h | h | h | h
    · have h1 : (n + 1) % 4 = 1 := by omega
      have h2 : (n + 1 + 1) / 4 = (n + 1) / 4 := by omega
      rw [h, h1, h2]
      rfl
    · have h1 : (n + 1) % 4 = 2 := by omega
      have h2 : (n + 1 + 1) / 4 = (n + 1) / 4 := by omega
      rw [h, h1, h2]
      rfl
    · have h1 : (n + 1) % 4 = 3 := by omega
      have h2 : (n + 1 + 1) / 4 = (n + 1) / 4 + 1 := by omega
      rw [h, h1, h2, List.replicate_succ']
      rfl
    · have h1 : (n + 1) % 4 = 0 := by omega
      have h2 : (n + 1 + 1) / 4 = (n + 1) / 4 := by omega
      rw [h, h1, h2]
      rfl

/-- C18 (non-halting loop): in the program `Mark 1, Push 1, OutN, Jump 1` the label 1
resolves to index 0, and after any number `n` of rounds from the initial state the machine is
still running (no fault, no halt), with a program counter among 0, 1, 2, 3 (it is
`n mod 4`), an operand stack of depth at most 1, and an output that is the text `1` written
exactly `(n + 1) / 4` times. -/
theorem C18_non_halting_loop (input : List Nat) (n : Nat) :
    (∀ pc, jmp loopProgram 1 pc = 0) ∧
    ∃ m, run loopProgram n (Machine.init input) = .running m ∧
      m.pc = ((n % 4 : Nat) : Int) ∧ 0 ≤ m.pc ∧ m.pc ≤ 3 ∧ m.ps.length ≤ 1 ∧
      m.output = List.replicate ((n + 1) / 4) '1' ∧ printInt 1 = ['1'] := by
  refine ⟨fun pc => rfl, _, loopProgram_run input n, rfl, ?_, ?_, ?_, rfl, by decide⟩
  · simp only; omega
  · simp only; omega
  · simp only; split_ifs <;> simp


/-! ### Termination and size of the lexer -/

theorem optable_key_length : ∀ e ∈ optable, 2 ≤ e.1.length := by
  decide

/-- What one round of the tokenising loop does to the stream and to the instructions: either
no codeword matches and the first byte is dropped, or a codeword of at least two bytes is
consumed, with the argument that may follow, and one instruction is added. -/
theorem lexLoop_round (fuel : Nat) (c : Nat) (s : List Nat) (toks : opcodes) :
    ∃ s1 toks1,
      lexLoop (fun _ => optable) (fuel + 1) (c :: s) toks
        = lexLoop (fun _ => optable) fuel s1 toks1 ∧
      s1.length < (c :: s).length ∧
      ((s1 = s ∧ toks1 = toks) ∨
        (∃ k code arg, (k, code) ∈ optable ∧ 2 ≤ k.length ∧ toks1 = toks ++ [⟨code, arg⟩] ∧
          s1.length + k.length ≤ (c :: s).length)) := by
  rw [lexLoop_succ]
  by_cases hm : (matchOp optable (c :: s)).1 = []
  · exact ⟨s, toks, by rw [if_pos hm], by simp, Or.inl ⟨rfl, rfl⟩⟩
  · rcases matchOp_spec optable (c :: s) with ⟨e, he, hp, hme⟩ | ⟨_, hme⟩
    · have h2 := optable_key_length e he
      have hle : e.1.length ≤ (c :: s).length := hp.length_le
      have hr := readArg_length e.2 ((c :: s).drop e.1.length)
      rw [List.length_drop] at hr
      rw [if_neg hm, hme]
      refine ⟨_, _, rfl, by omega, Or.inr ⟨e.1, e.2, _, he, h2, rfl, by omega⟩⟩
    · rw [hme] at hm; exact absurd rfl hm

/-- Every instruction costs at least two bytes of the stream. -/
theorem lexLoop_count (fuel : Nat) : ∀ (s : List Nat) (toks r : opcodes),
    lexLoop (fun _ => optable) fuel s toks = some r →
      2 * r.length ≤ 2 * toks.length + s.length := by
  induction fuel with
  | zero =>
    intro s toks r h
    cases s with
    | nil => simp [lexLoop] at h; subst h; simp
    | cons c s => simp [lexLoop] at h
  | succ n ih =>
    intro s toks r h
    cases s with
    | nil => rw [lexLoop_nil] at h; simp at h; subst h; simp
    | cons c s =>
      obtain ⟨s1, toks1, he, hlt, hor⟩ := lexLoop_round n c s toks
      rw [he] at h
      have := ih s1 toks1 r h
      rcases hor with ⟨rfl, rfl⟩ | ⟨k, code, arg, _, hk, rfl, hlen⟩
      · simp only [List.length_cons]; omega
      · simp only [List.length_append, List.length_singleton] at this
        omega

/-- C19 (the lexer terminates): on every byte sequence the comment loop ends (with the
sequence of the space, tab and newline bytes of the source) and the tokenising loop ends on
every stream, whatever the orders in which the table is iterated; each round of the
tokenising loop continues with a strictly shorter stream, either the stream without its first
byte and the same instructions, or the stream without a codeword of at least two bytes (and
without the argument consumed) and one more instruction; and the number of instructions
decoded is at most half the number of space, tab and newline bytes of the source. -/
theorem C19_lexer_terminates (src : List Nat) :
    strip src = some (src.filter isBlank) ∧
    (∀ (order : Nat → List (List Nat × Op)) (extra : Nat) (s : List Nat) (toks : opcodes),
      ∃ r, lexLoop order (s.length + extra) s toks = some r) ∧
    (∀ (fuel c : Nat) (s : List Nat) (toks : opcodes),
      ∃ s1 toks1,
        lexLoop (fun _ => optable) (fuel + 1) (c :: s) toks
          = lexLoop (fun _ => optable) fuel s1 toks1 ∧
        s1.length < (c :: s).length ∧
        ((s1 = s ∧ toks1 = toks) ∨
          (∃ k code arg, (k, code) ∈ optable ∧ 2 ≤ k.length ∧ toks1 = toks ++ [⟨code, arg⟩] ∧
            s1.length + k.length ≤ (c :: s).length))) ∧
    (∃ toks, decode src = some toks ∧ 2 * toks.length ≤ (src.filter isBlank).length) := by
  refine ⟨strip_eq_filter src, ?_, fun fuel c s toks => lexLoop_round fuel c s toks, ?_⟩
  · intro order extra s toks
    exact lexLoop_total order _ s toks (Nat.le_add_right _ _)
  · obtain ⟨toks, ht⟩ := decode_total src
    refine ⟨toks, ht, ?_⟩
    unfold decode at ht
    rw [strip_eq_filter] at ht
    have := lexLoop_count _ _ _ _ ht
    simpa using this

/-! ### The execution switch -/

/-- The `default` branch of the execution switch is taken only for the five opcodes without a
case. -/
theorem step_unknownOpcode (tokens : opcodes) (m m1 : Machine)
    (h : step tokens m = .panicked .unknownOpcode m1) :
    ∃ t ∈ tokens, t.code ∈ [Op.Signed, Op.Unsigned, Op.Copy, Op.Slide, Op.Nop] := by
  unfold step at h
  cases hf : fetch tokens m.pc with
  | none => rw [hf] at h; simp at h
  | some t =>
    have hmem : t ∈ tokens := by
      unfold fetch at hf
      split_ifs at hf
      exact List.get?_mem hf
    obtain ⟨code, arg⟩ := t
    rw [hf] at h
    cases code
    all_goals simp only at h
    all_goals first
      | (simp at h; done)
      | (split at h <;> simp at h)
      | (refine ⟨_, hmem, ?_⟩; simp)

theorem run_unknownOpcode (tokens : opcodes) (n : Nat) : ∀ (m m1 : Machine),
    run tokens n m = .panicked .unknownOpcode m1 →
      ∃ t ∈ tokens, t.code ∈ [Op.Signed, Op.Unsigned, Op.Copy, Op.Slide, Op.Nop] := by
  induction n with
  | zero => intro m m1 h; simp [run] at h
  | succ n ih =>
    intro m m1 h
    cases hs : step tokens m with
    | running m2 => rw [run_of_running _ _ _ _ hs] at h; exact ih m2 m1 h
    | exited s m2 => rw [run_of_exited _ _ _ _ _ hs] at h; simp at h
    | panicked p m2 =>
      rw [run_of_panicked _ _ _ _ _ hs] at h
      simp only [Outcome.panicked.injEq] at h
      rw [h.1] at hs
      exact step_unknownOpcode tokens m m2 hs

/-- C20 (the dispatch is exhaustive): every instruction of a decoded sequence has an opcode
that is a value of `optable`, hence none of `Signed`, `Unsigned`, `Copy`, `Slide`, `Nop`, the
five opcodes without a case in the execution switch; so on a decoded program no round and no
run, from any machine state and on any input, ends in the panic `Unknown opcode` of the
`default` branch. -/
theorem C20_dispatch_exhaustive (src : List Nat) (toks : opcodes)
    (h : decode src = some toks) :
    (∀ t ∈ toks, ∃ e ∈ optable, e.2 = t.code) ∧
    (∀ t ∈ toks, t.code ∉ [Op.Signed, Op.Unsigned, Op.Copy, Op.Slide, Op.Nop]) ∧
    (∀ (m m1 : Machine), step toks m ≠ .panicked .unknownOpcode m1) ∧
    (∀ (n : Nat) (m m1 : Machine), run toks n m ≠ .panicked .unknownOpcode m1) ∧
    (∀ (input : List Nat) (n : Nat) (m1 : Machine),
      whitespace src input n ≠ some (.panicked .unknownOpcode m1)) := by
  have hv : ∀ t ∈ toks, ∃ e ∈ optable, e.2 = t.code := by
    intro t ht
    have h' := h
    unfold decode at h'
    rw [strip_eq_filter] at h'
    rcases lexLoop_codes _ _ _ _ h' t ht with h2 | h2
    · simp at h2
    · exact h2
  have hvals : ∀ e ∈ optable, e.2 ∉ [Op.Signed, Op.Unsigned, Op.Copy, Op.Slide, Op.Nop] := by
    decide
  have hn : ∀ t ∈ toks, t.code ∉ [Op.Signed, Op.Unsigned, Op.Copy, Op.Slide, Op.Nop] := by
    intro t ht
    obtain ⟨e, he, hc⟩ := hv t ht
    rw [← hc]; exact hvals e he
  have hrun : ∀ (n : Nat) (m m1 : Machine), run toks n m ≠ .panicked .unknownOpcode m1 := by
    intro n m m1 hr
    obtain ⟨t, ht, hc⟩ := run_unknownOpcode toks n m m1 hr
    exact hn t ht hc
  refine ⟨hv, hn, ?_, hrun, ?_⟩
  · intro m m1 hs
    obtain ⟨t, ht, hc⟩ := step_unknownOpcode toks m m1 hs
    exact hn t ht hc
  · intro input n m1 hw
    unfold whitespace at hw
    rw [h] at hw
    simp only [Option.map_some', Option.some.injEq] at hw
    exact hrun n _ m1 hw

/-- Witness of C20 on the source of `Push 1, Exit`. -/
theorem C20_dispatch_exhaustive_witness :
    whitespace [32, 32, 32, 9, 10, 10, 10, 10] [] 2
      ≠ some (.panicked .unknownOpcode (Machine.init [])) :=
  (C20_dispatch_exhaustive [32, 32, 32, 9, 10, 10, 10, 10] [⟨.Push, 1⟩, ⟨.Exit, 0⟩]
    (by decide)).2.2.2.2 [] 2 (Machine.init [])

end Ws
